import Mathlib

set_option maxHeartbeats 2000000
set_option maxRecDepth 8000

/-- Tag kinds attached to template blocks. Modelled from the spec, section 3
(the Tag enum lives in template/mod.rs, outside the parser source file). -/
inductive Tag where
  | Escaped
  | Unescaped
  | Section
  | Inverse
  | Closing
  | Partial
  | Comment

deriving instance DecidableEq for Tag

/-- Expected number of closing braces, carried as lexer extras
(parse.rs lines 58-70); the numeric value models the Rust discriminant. -/
inductive Braces where
  | Two
  | Three

deriving instance DecidableEq for Braces

def Braces.toNat : Braces → Nat
  | .Two => 2
  | .Three => 3

/-- One parsed block. Modelled from the spec, section 3 (struct Block lives in
template/mod.rs, outside the parser source file): html and name are zero-copy
slices of the source, hash is the identifier hash, children counts the
following blocks belonging to this block's subtree. -/
structure Block where
  html : List Char
  name : List Char
  hash : Nat
  tag : Tag
  children : Nat

deriving instance DecidableEq for Block

instance : Inhabited Block := ⟨⟨[], [], 0, Tag.Comment, 0⟩⟩

/-- Modelled from the spec: the external identifier-hash contract of section 6
(deterministic, collisions assumed absent for valid identifiers). An injective
fold over the characters stands in for the 64-bit hash. -/
def hash_name (name : List Char) : Nat :=
  name.foldl (fun acc c => acc * 1114112 + (c.toNat + 1)) 0

/-- Modelled from the spec: constructor for named blocks, children start at 0. -/
def Block.new (html name : List Char) (tag : Tag) : Block :=
  ⟨html, name, hash_name name, tag, 0⟩

/-- Modelled from the spec: constructor for nameless blocks (hash is zero). -/
def Block.nameless (html : List Char) (tag : Tag) : Block :=
  ⟨html, [], 0, tag, 0⟩

/-- Copy of a block with the children field replaced. -/
def Block.withChildren (blk : Block) (c : Nat) : Block :=
  ⟨blk.html, blk.name, blk.hash, blk.tag, c⟩

/-- Error taxonomy of the parser (modelled from the spec, section 7; the enum
itself lives in template/mod.rs, outside the parser source file). -/
inductive Error where
  | UnclosedTag
  | UnclosedSection (name : List Char)
  | UnopenedSection (name : List Char)
  | NestingOverflow
  | PartialNotFound (name : List Char)

deriving instance DecidableEq for Error

deriving instance DecidableEq for Except

/-- A parsed template: block list plus capacity hint (modelled from the spec,
section 3). -/
structure Template where
  blocks : List Block
  capacity_hint : Nat

deriving instance DecidableEq for Template

/-- Identifier bytes are anything but an ASCII space and a closing brace
(the Closing::Ident regex, parse.rs line 50). -/
def isIdentChar (c : Char) : Bool :=
  c != ' ' && c != '}'

/-- Maximal run of identifier bytes. -/
def takeIdent : List Char → List Char
  | [] => []
  | c :: cs => if isIdentChar c then c :: takeIdent cs else []

/-- Tokens of the Closing-mode lexer; each carries its span start and the
matched slice. -/
inductive CTok where
  | cmatch (start : Nat) (slice : List Char)
  | cident (start : Nat) (slice : List Char)
  | cerr (start : Nat) (slice : List Char)

deriving instance DecidableEq for CTok

/-- One step of the Closing-mode lexer (parse.rs lines 40-56): skip runs of
spaces; a three-brace run always yields the Match token, a two-brace run
yields Match only when two braces are expected (the callback on the two-brace
token force-fails it when three are expected); a single brace is an error;
anything else starts an identifier (maximal run of non-space non-brace
bytes). Returns the token (none at end of input) and the new cursor. -/
def closingNextAux (b : Braces) : List Char → Nat → Option CTok × Nat
  | [], pos => (none, pos)
  | c :: cs, pos =>
    if c = ' ' then closingNextAux b cs (pos + 1)
    else if c = '}' then
      if cs.head? = some '}' then
        if cs.tail.head? = some '}' then (some (.cmatch pos ['}', '}', '}']), pos + 3)
        else if b = Braces.Three then (some (.cerr pos ['}', '}']), pos + 2)
        else (some (.cmatch pos ['}', '}']), pos + 2)
      else (some (.cerr pos ['}']), pos + 1)
    else (some (.cident pos (c :: takeIdent cs)), pos + (c :: takeIdent cs).length)

def closingNext (src : List Char) (pos : Nat) (b : Braces) : Option CTok × Nat :=
  closingNextAux b (src.drop pos) pos

/-- Opening-mode scan (parse.rs lines 16-38): skip bytes until a double-brace
sigil and classify the tag by the byte after it (longest match, so three
contiguous braces beat the plain two-brace sigil); a lone brace is skipped.
Returns sigil start, tag, sigil length and the expected closing braces. -/
def findSigilAux : List Char → Nat → Option (Nat × Tag × Nat × Braces)
  | [], _ => none
  | '{' :: '{' :: cs, pos =>
    match cs with
    | '&' :: _ => some (pos, Tag.Unescaped, 3, Braces.Two)
    | '{' :: _ => some (pos, Tag.Unescaped, 3, Braces.Three)
    | '#' :: _ => some (pos, Tag.Section, 3, Braces.Two)
    | '^' :: _ => some (pos, Tag.Inverse, 3, Braces.Two)
    | '/' :: _ => some (pos, Tag.Closing, 3, Braces.Two)
    | '>' :: _ => some (pos, Tag.Partial, 3, Braces.Two)
    | '!' :: _ => some (pos, Tag.Comment, 3, Braces.Two)
    | _ => some (pos, Tag.Escaped, 2, Braces.Two)
  | _ :: cs, pos => findSigilAux cs (pos + 1)

def findSigil (src : List Char) (pos : Nat) : Option (Nat × Tag × Nat × Braces) :=
  findSigilAux (src.drop pos) pos

/-- Slice of a closing-mode token, as the logos lexer's slice() reports it
(empty at end of input). -/
def tokSlice : Option CTok → List Char
  | some (.cmatch _ sl) => sl
  | some (.cident _ sl) => sl
  | some (.cerr _ sl) => sl
  | none => []

/-- Source slice from byte a (inclusive) to byte b (exclusive). -/
def seg (src : List Char) (a b : Nat) : List Char :=
  (src.drop a).take (b - a)

/-- In-place update of one list element, mirroring indexed assignment. -/
def modifyAt (l : List Block) (i : Nat) (f : Block → Block) : List Block :=
  match l, i with
  | [], _ => []
  | x :: xs, 0 => f x :: xs
  | x :: xs, i + 1 => x :: modifyAt xs i f

/-- Concatenation of the html fields of a block list, in block order. -/
def htmlConcat : List Block → List Char
  | [] => []
  | blk :: bs => blk.html ++ htmlConcat bs

/-- ArrayVec::try_push on the 16-frame opener stack (parse.rs line 80); the
capacity error converts to NestingOverflow. -/
def tryPush (stack : List Nat) (i : Nat) : Except Error (List Nat) :=
  if stack.length < 16 then .ok (i :: stack) else .error Error.NestingOverflow

/-- The pop_section closure of the Closing arm (parse.rs lines 150-163): pop
the innermost opener frame (UnopenedSection when the stack is empty), set its
children to tail - head_idx, then fail with UnclosedSection carrying the
opener's name when its hash differs from the identifier's hash. -/
def popSection (tail : Nat) (blocks : List Block) (stack : List Nat)
    (name : List Char) : Except Error (List Block × List Nat) :=
  let hash := hash_name name
  match stack with
  | [] => .error (Error.UnopenedSection name)
  | headIdx :: rest =>
    match blocks[headIdx]? with
    | none => .error Error.UnclosedTag
    | some head =>
      let head2 := head.withChildren (tail - headIdx)
      let blocks2 := modifyAt blocks headIdx (fun blk => blk.withChildren (tail - headIdx))
      if head2.hash ≠ hash then .error (Error.UnclosedSection head2.name)
      else .ok (blocks2, rest)

/-- Iterated pop_section over a list of identifiers, in order. -/
def popSections (tail : Nat) : List (List Char) → List Block → List Nat →
    Except Error (List Block × List Nat)
  | [], bs, st => .ok (bs, st)
  | n :: ns, bs, st =>
    match popSection tail bs st n with
    | .error er => .error er
    | .ok (bs2, st2) => popSections tail ns bs2 st2

/-- Token loop of the Escaped/Unescaped arm (parse.rs lines 109-122): each
further identifier turns the pending block into a synthetic Section, the
closing Match emits the terminal block with the original tag. -/
def varLoop (src : List Char) (b : Braces) (tag : Tag) :
    Nat → Nat → List Char → List Char → List Block →
    Except Error (List Block × Nat × Nat)
  | 0, _, _, _, _ => .error Error.UnclosedTag
  | fuel + 1, pos, html, name, blocks =>
    match closingNext src pos b with
    | (some (CTok.cident _ nm), p2) =>
      varLoop src b tag fuel p2 [] nm (blocks ++ [Block.new html name Tag.Section])
    | (some (CTok.cmatch ms _), p2) =>
      .ok (blocks ++ [Block.new html name tag], ms, p2)
    | _ => .error Error.UnclosedTag

/-- Children back-fill of the Escaped/Unescaped arm (parse.rs lines 124-127):
for i in 0..d the block at tailIdx+i receives children d-i; the counter k
runs d, d-1, ..., 1 so that i = d-k and the stored value is k. -/
def backfill (tailIdx d : Nat) : Nat → List Block → List Block
  | 0, bs => bs
  | k + 1, bs =>
    backfill tailIdx d k (modifyAt bs (tailIdx + (d - (k + 1))) (fun blk => blk.withChildren (k + 1)))

/-- The whole Escaped/Unescaped arm: token loop, then children back-fill over
the d = len - tailIdx - 1 synthetic sections. -/
def varArm (src : List Char) (b : Braces) (tag : Tag) (fuel pos : Nat)
    (html name : List Char) (blocks : List Block) (tailIdx : Nat) :
    Except Error (List Block × Nat × Nat) :=
  match varLoop src b tag fuel pos html name blocks with
  | .error er => .error er
  | .ok (bs, ms, en) =>
    .ok (backfill tailIdx (bs.length - tailIdx - 1) (bs.length - tailIdx - 1) bs, ms, en)

/-- Token loop of the Section/Inverse arm (parse.rs lines 130-145): before
every emitted block the block index is pushed onto the opener stack; further
identifiers emit synthetic Sections, the Match emits the terminal block with
the original tag. -/
def sectionLoop (src : List Char) (b : Braces) (tag : Tag) :
    Nat → Nat → List Char → List Char → List Block → List Nat →
    Except Error (List Block × List Nat × Nat × Nat)
  | 0, _, _, _, _, _ => .error Error.UnclosedTag
  | fuel + 1, pos, html, name, blocks, stack =>
    match closingNext src pos b with
    | (some (CTok.cident _ nm), p2) =>
      (match tryPush stack blocks.length with
       | .error er => .error er
       | .ok st2 =>
         sectionLoop src b tag fuel p2 [] nm (blocks ++ [Block.new html name Tag.Section]) st2)
    | (some (CTok.cmatch ms _), p2) =>
      (match tryPush stack blocks.length with
       | .error er => .error er
       | .ok st2 => .ok (blocks ++ [Block.new html name tag], st2, ms, p2))
    | _ => .error Error.UnclosedTag

/-- Token loop of the Closing arm (parse.rs lines 166-174): every further
identifier pops one opener frame via pop_section; Match ends the tag. -/
def closeLoop (src : List Char) (b : Braces) :
    Nat → Nat → Nat → List Block → List Nat →
    Except Error (List Block × List Nat × Nat × Nat)
  | 0, _, _, _, _ => .error Error.UnclosedTag
  | fuel + 1, pos, tail, blocks, stack =>
    match closingNext src pos b with
    | (some (CTok.cident _ nm), p2) =>
      (match popSection tail blocks stack nm with
       | .error er => .error er
       | .ok (bs2, st2) => closeLoop src b fuel p2 tail bs2 st2)
    | (some (CTok.cmatch ms _), p2) => .ok (blocks, stack, ms, p2)
    | _ => .error Error.UnclosedTag

/-- The whole Closing arm (parse.rs lines 147-174): push a nameless Closing
block carrying the captured html at index tailIdx, pop once for the first
identifier, then run the token loop. -/
def closingArm (src : List Char) (b : Braces) (fuel pos : Nat)
    (html name : List Char) (blocks : List Block) (stack : List Nat)
    (tailIdx : Nat) : Except Error (List Block × List Nat × Nat × Nat) :=
  let blocks2 := blocks ++ [Block.nameless html Tag.Closing]
  match popSection tailIdx blocks2 stack name with
  | .error er => .error er
  | .ok (bs2, st2) => closeLoop src b fuel pos tailIdx bs2 st2

/-- The Partial arm (parse.rs lines 176-186): the token after the single
identifier must be the closing Match; a nameless Partial block carrying the
captured html is pushed, the resolver is invoked (errors propagate), the
returned template's blocks are appended verbatim and its capacity hint is
added. -/
def partialArm (src : List Char) (resolver : List Char → Except Error Template)
    (b : Braces) (pos : Nat) (html name : List Char) (blocks : List Block)
    (hint : Nat) : Except Error (List Block × Nat × Nat × Nat) :=
  match closingNext src pos b with
  | (some (CTok.cmatch ms _), p2) =>
    (let blocks2 := blocks ++ [Block.nameless html Tag.Partial]
     match resolver name with
     | .error er => .error er
     | .ok ptpl => .ok (blocks2 ++ ptpl.blocks, hint + ptpl.capacity_hint, ms, p2))
  | _ => .error Error.UnclosedTag

/-- Token loop of the Comment (catch-all) arm (parse.rs lines 187-196):
identifiers are discarded until the closing Match. -/
def commentLoop (src : List Char) (b : Braces) :
    Nat → Nat → Except Error (Nat × Nat)
  | 0, _ => .error Error.UnclosedTag
  | fuel + 1, pos =>
    match closingNext src pos b with
    | (some (CTok.cident _ _), p2) => commentLoop src b fuel p2
    | (some (CTok.cmatch ms _), p2) => .ok (ms, p2)
    | _ => .error Error.UnclosedTag

/-- Tag dispatch of one loop iteration (the match at parse.rs lines 107-197):
runs the arm for the tag and returns the updated blocks, stack and hint
together with the final Match token's start and the scan end position. -/
def armStep (src : List Char) (resolver : List Char → Except Error Template)
    (b : Braces) (tag : Tag) (fuel pos : Nat) (html name : List Char)
    (blocks : List Block) (stack : List Nat) (hint : Nat) :
    Except Error (List Block × List Nat × Nat × Nat × Nat) :=
  let tailIdx := blocks.length
  match tag with
  | Tag.Escaped | Tag.Unescaped =>
    (match varArm src b tag fuel pos html name blocks tailIdx with
     | .error er => .error er
     | .ok (bs, ms, en) => .ok (bs, stack, hint, ms, en))
  | Tag.Section | Tag.Inverse =>
    (match sectionLoop src b tag fuel pos html name blocks stack with
     | .error er => .error er
     | .ok (bs, st, ms, en) => .ok (bs, st, hint, ms, en))
  | Tag.Closing =>
    (match closingArm src b fuel pos html name blocks stack tailIdx with
     | .error er => .error er
     | .ok (bs, st, ms, en) => .ok (bs, st, hint, ms, en))
  | Tag.Partial =>
    (match partialArm src resolver b pos html name blocks hint with
     | .error er => .error er
     | .ok (bs, h2, ms, en) => .ok (bs, stack, h2, ms, en))
  | Tag.Comment =>
    (match commentLoop src b fuel pos with
     | .error er => .error er
     | .ok (ms, en) => .ok (blocks ++ [Block.nameless html Tag.Comment], stack, hint, ms, en))

/-- Main parse loop (parse.rs lines 82-206). Each iteration: find the next
sigil, capture the html since the cursor `last` and add its length to the
capacity hint, read the first closing-mode token (the matches! check at
parse.rs line 102 is inverted and can never fail, so the token kind is not
inspected and its slice becomes the first identifier), dispatch on the tag,
then resume literal scanning with last = match start + expected braces (not
the matched token length). Returns blocks, hint, last, the final opener
stack, and (as verification instrumentation) the list of consumed tag spans
(sigil start, new last). -/
def parseLoop (src : List Char) (resolver : List Char → Except Error Template) :
    Nat → List Block → Nat → List Nat → Nat → Nat →
    Except Error (List Block × Nat × Nat × List Nat × List (Nat × Nat))
  | 0, _, _, _, _, _ => .error Error.UnclosedTag
  | fuel + 1, blocks, hint, stack, last, pos =>
    match findSigil src pos with
    | none => .ok (blocks, hint, last, stack, [])
    | some (start, tag, sigLen, b) =>
      let html := seg src last start
      let hint2 := hint + html.length
      let first := closingNext src (start + sigLen) b
      let name := tokSlice first.1
      let p0 := first.2
      match armStep src resolver b tag (src.length + 1) p0 html name blocks stack hint2 with
      | .error er => .error er
      | .ok (bs, st, h2, ms, en) =>
        match parseLoop src resolver fuel bs h2 st (ms + b.toNat) en with
        | .error er => .error er
        | .ok (bsF, hF, lastF, stF, spans) =>
          .ok (bsF, hF, lastF, stF, (start, ms + b.toNat) :: spans)

/-- Template::parse with instrumentation: blocks, capacity hint, tail offset,
final opener stack, and the list of consumed tag spans. The fuel is one more
than the source length; each iteration advances the scan cursor, so it never
runs out on any real execution. -/
def parseAll (src : List Char) (resolver : List Char → Except Error Template) :
    Except Error (List Block × Nat × Nat × List Nat × List (Nat × Nat)) :=
  parseLoop src resolver (src.length + 1) [] 0 [] 0 0

/-- Template::parse (parse.rs lines 73-209): returns the built template and
the tail offset of the unprocessed trailing literal. -/
def parse (src : List Char) (resolver : List Char → Except Error Template) :
    Except Error (Template × Nat) :=
  match parseAll src resolver with
  | .error er => .error er
  | .ok (bs, hint, last, _, _) => .ok (⟨bs, hint⟩, last)

/-- A partial resolver with no partials: every lookup fails. -/
def failRes : List Char → Except Error Template :=
  fun nm => .error (Error.PartialNotFound nm)

/-- A resolver that knows the single partial p (the spec's scenario E7). -/
def resP : List Char → Except Error Template :=
  fun nm =>
    if nm = ['p'] then .ok ⟨[⟨['P'], [], 0, Tag.Comment, 0⟩], 1⟩
    else .error (Error.PartialNotFound nm)

/-- Seventeen nested section openers (the spec's scenario E9). -/
def nested17 : List Char :=
  List.flatten (List.replicate 17 ['{', '{', '#', 's', '}', '}'])

/-- Number of consecutive closing braces at the head of a byte list. -/
def consecBraces : List Char → Nat
  | [] => 0
  | c :: cs => if c = '}' then consecBraces cs + 1 else 0

/-- Number of consecutive closing braces at a position of the source. -/
def consecAt (src : List Char) (pos : Nat) : Nat :=
  consecBraces (src.drop pos)

/-- Source text with the given (start, end) spans deleted: emit the text from
the cursor up to each span start, skip to the span end, and after the final
span emit the rest of the source. -/
def removeSpans (src : List Char) : Nat → List (Nat × Nat) → List Char
  | last, [] => src.drop last
  | last, (s, e) :: rest => seg src last s ++ removeSpans src e rest

/-- Blocks pushed by the Escaped/Unescaped token loop before back-fill: one
synthetic Section per non-terminal identifier (children still 0), the first
carrying the captured html, then the terminal block with the original tag. -/
def rawVarBlocks (html : List Char) : List (List Char) → Tag → List Block
  | [], _ => []
  | [n], tag => [Block.new html n tag]
  | n :: n2 :: rest, tag =>
    Block.new html n Tag.Section :: rawVarBlocks [] (n2 :: rest) tag

/-- Spec-level description of a dotted-expansion block group: like
rawVarBlocks, but every synthetic Section already carries as children the
number of blocks following it in the group (the chain d-1, ..., 1). -/
def mkVarBlocks (html : List Char) : List (List Char) → Tag → List Block
  | [], _ => []
  | [n], tag => [Block.new html n tag]
  | n :: n2 :: rest, tag =>
    Block.withChildren (Block.new html n Tag.Section) (n2 :: rest).length ::
      mkVarBlocks [] (n2 :: rest) tag

/-- The closing-mode token stream from a position consists of the listed
identifiers followed by a closing Match starting at ms and ending at en. -/
inductive ClosingToks (src : List Char) (b : Braces) :
    Nat → List (List Char) → Nat → Nat → Prop where
  | base : ∀ pos ms sl en, closingNext src pos b = (some (.cmatch ms sl), en) →
      ClosingToks src b pos [] ms en
  | step : ∀ pos s nm p2 ids ms en,
      closingNext src pos b = (some (.cident s nm), p2) →
      ClosingToks src b p2 ids ms en →
      ClosingToks src b pos (nm :: ids) ms en

/-- Tags at which an opener's subtree may end: the Closing block of a stack
opener, or the terminal of a dotted variable expansion. -/
def goodEnd (t : Tag) : Prop :=
  t = Tag.Closing ∨ t = Tag.Escaped ∨ t = Tag.Unescaped

/-- Subtree invariant at index i: a Section or Inverse block with nonzero
children has a block at the end of its inclusive subtree, with a goodEnd tag. -/
def blockOk (bs : List Block) (i : Nat) : Prop :=
  ∀ blk, bs[i]? = some blk → (blk.tag = Tag.Section ∨ blk.tag = Tag.Inverse) →
    blk.children ≠ 0 →
    ∃ b2, bs[i + blk.children]? = some b2 ∧ goodEnd b2.tag

/-- Subtree invariant at every index. -/
def blocksOk (bs : List Block) : Prop := ∀ i, blockOk bs i

/-- C1 counterexample: on a source consisting of a single unclosed section
opener, the parser reaches end of input with the opener frame still on the
stack (final stack [0]) yet returns Ok with tail offset 6, not
UnclosedSection("a"). -/
theorem cx_C1 :
    parseAll ['{', '{', '#', 'a', '}', '}'] failRes =
      .ok ([Block.new [] ['a'] Tag.Section], 0, 6, [0], [(0, 6)]) ∧
    parse ['{', '{', '#', 'a', '}', '}'] failRes ≠
      .error (Error.UnclosedSection ['a']) :=
  ⟨rfl, by decide⟩

/-- C1 amended: when the Opening lexer finds no further sigil (end of input),
the parse loop returns Ok with the current tail offset whatever the opener
stack holds; no stack-emptiness check exists in parse. -/
theorem th_C1 (src : List Char) (resolver : List Char → Except Error Template)
    (fuel : Nat) (bs : List Block) (hint : Nat) (stack : List Nat)
    (last pos : Nat) (h : findSigil src pos = none) :
    parseLoop src resolver (fuel + 1) bs hint stack last pos =
      .ok (bs, hint, last, stack, []) := by
  simp [parseLoop, h]

/-- C1 witness: the amended theorem applied at the end-of-input state reached
by parsing the unclosed opener, with a nonempty stack. -/
theorem th_C1_w :
    findSigil ['{', '{', '#', 'a', '}', '}'] 6 = none ∧
    parseLoop ['{', '{', '#', 'a', '}', '}'] failRes 1
        [Block.new [] ['a'] Tag.Section] 0 [0] 6 6 =
      .ok ([Block.new [] ['a'] Tag.Section], 0, 6, [0], []) :=
  ⟨rfl, th_C1 ['{', '{', '#', 'a', '}', '}'] failRes 0
      [Block.new [] ['a'] Tag.Section] 0 [0] 6 6 rfl⟩

/-- C5 (code bug): the required-identifier check at parse.rs lines 101-104 is
dead code (the matches! arguments are swapped, so the pattern is a catch-all
binder). With the identifier absent, {{/}} takes the Match token's slice "}}"
as the identifier and fails with UnopenedSection("}}") instead of
UnclosedTag, and {{}}a}} even parses successfully, with "}}" as a section
name. -/
theorem th_C5 :
    parse ['{', '{', '/', '}', '}'] failRes =
      .error (Error.UnopenedSection ['}', '}']) ∧
    parse ['{', '{', '}', '}', 'a', '}', '}'] failRes =
      .ok (⟨[Block.withChildren (Block.new [] ['}', '}'] Tag.Section) 1,
             Block.new [] ['a'] Tag.Escaped], 0⟩, 7) :=
  ⟨rfl, rfl⟩

/-- C7: after a tag closes, the cursor advances by the expected brace count,
not the matched token length: {{{raw}}}} consumes three closing braces and
leaves the literal "}" after tail offset 9; {{a}}} (two expected, three
present) leaves "}" after tail offset 5; and in {{a}}}b{{c}} the stray brace
lands in the next block's literal html "}b". -/
theorem th_C7 :
    parse ['{', '{', '{', 'r', 'a', 'w', '}', '}', '}', '}'] failRes =
      .ok (⟨[Block.new [] ['r', 'a', 'w'] Tag.Unescaped], 0⟩, 9) ∧
    List.drop 9 ['{', '{', '{', 'r', 'a', 'w', '}', '}', '}', '}'] = ['}'] ∧
    parse ['{', '{', 'a', '}', '}', '}'] failRes =
      .ok (⟨[Block.new [] ['a'] Tag.Escaped], 0⟩, 5) ∧
    List.drop 5 ['{', '{', 'a', '}', '}', '}'] = ['}'] ∧
    parse ['{', '{', 'a', '}', '}', '}', 'b', '{', '{', 'c', '}', '}'] failRes =
      .ok (⟨[Block.new [] ['a'] Tag.Escaped,
             Block.new ['}', 'b'] ['c'] Tag.Escaped], 2⟩, 12) :=
  ⟨rfl, rfl, rfl, rfl, rfl⟩

/-- C3 counterexample: {{#a}} parses successfully (see C1), its opener block
keeps children = 0, and the block at index 0 + 0 is the opener itself, whose
tag is Section, not Closing. -/
theorem cx_C3 :
    parse ['{', '{', '#', 'a', '}', '}'] failRes =
      .ok (⟨[Block.new [] ['a'] Tag.Section], 0⟩, 6) ∧
    (Block.new [] ['a'] Tag.Section).children = 0 ∧
    List.map Block.tag ([Block.new [] ['a'] Tag.Section])[0 + 0]?.toList ≠
      [Tag.Closing] :=
  ⟨rfl, rfl, by decide⟩

/-- C4 counterexample: with a partial inlined (scenario E7), the inlined
block's html "P" comes from the partial's source, so the concatenation of
block htmls plus the tail "A P B" differs from the source with its only tag
span (2, 8) deleted, "A  B". -/
theorem cx_C4 :
    parseAll ['A', ' ', '{', '{', '>', 'p', '}', '}', ' ', 'B'] resP =
      .ok ([Block.nameless ['A', ' '] Tag.Partial, ⟨['P'], [], 0, Tag.Comment, 0⟩],
           3, 8, [], [(2, 8)]) ∧
    htmlConcat [Block.nameless ['A', ' '] Tag.Partial, ⟨['P'], [], 0, Tag.Comment, 0⟩] ++
        List.drop 8 ['A', ' ', '{', '{', '>', 'p', '}', '}', ' ', 'B'] ≠
      removeSpans ['A', ' ', '{', '{', '>', 'p', '}', '}', ' ', 'B'] 0 [(2, 8)] :=
  ⟨rfl, by decide⟩

/-- C8 counterexample: with two braces expected, the Match token nevertheless
succeeds on three consecutive closing braces (the three-brace token carries no
force-fail callback), refuting that Match succeeds only when the counts are
equal. -/
theorem cx_C8 :
    ¬ (∀ (src : List Char) (pos : Nat) (b : Braces) (ms : Nat)
        (sl : List Char) (p2 : Nat),
        closingNext src pos b = (some (CTok.cmatch ms sl), p2) →
        consecAt src ms = b.toNat) := by
  intro h
  exact absurd (h ['}', '}', '}'] 0 Braces.Two 0 ['}', '}', '}'] 3 rfl) (by decide)

/-- C9: the opener stack is capped at 16 frames: any try_push onto a full
stack fails with NestingOverflow, and seventeen nested section openers make
parse fail with NestingOverflow. -/
theorem th_C9 :
    (∀ (stack : List Nat) (i : Nat), 16 ≤ stack.length →
      tryPush stack i = .error Error.NestingOverflow) ∧
    parse nested17 failRes = .error Error.NestingOverflow := by
  constructor
  · intro stack i h
    unfold tryPush
    rw [if_neg (Nat.not_lt.mpr h)]
  · rfl

/-- C9 witness: the stack-cap clause applied to a concrete full stack. -/
theorem th_C9_w :
    16 ≤ (List.replicate 16 0).length ∧
    tryPush (List.replicate 16 0) 5 = .error Error.NestingOverflow :=
  ⟨by decide, th_C9.1 (List.replicate 16 0) 5 (by decide)⟩

/-- C10: the Partial arm requires the token after the single identifier to be
the closing Match (an UnclosedTag error otherwise), emits one nameless
Partial block carrying the captured html, invokes the resolver with the
identifier, appends the returned template's blocks verbatim and adds its
capacity hint; a resolver error propagates. Scenario E7 evaluates as the
spec states, with capacity hint 3 ≥ 3. -/
theorem th_C10 :
    (∀ (src : List Char) (resolver : List Char → Except Error Template)
        (b : Braces) (pos : Nat) (html name : List Char) (blocks : List Block)
        (hint ms : Nat) (sl : List Char) (p2 : Nat) (ptpl : Template),
      closingNext src pos b = (some (CTok.cmatch ms sl), p2) →
      resolver name = .ok ptpl →
      partialArm src resolver b pos html name blocks hint =
        .ok (blocks ++ [Block.nameless html Tag.Partial] ++ ptpl.blocks,
             hint + ptpl.capacity_hint, ms, p2)) ∧
    (∀ (src : List Char) (resolver : List Char → Except Error Template)
        (b : Braces) (pos : Nat) (html name : List Char) (blocks : List Block)
        (hint ms : Nat) (sl : List Char) (p2 : Nat) (er : Error),
      closingNext src pos b = (some (CTok.cmatch ms sl), p2) →
      resolver name = .error er →
      partialArm src resolver b pos html name blocks hint = .error er) ∧
    (∀ (src : List Char) (resolver : List Char → Except Error Template)
        (b : Braces) (pos : Nat) (html name : List Char) (blocks : List Block)
        (hint s : Nat) (sl : List Char) (p2 : Nat),
      closingNext src pos b = (some (CTok.cident s sl), p2) →
      partialArm src resolver b pos html name blocks hint =
        .error Error.UnclosedTag) ∧
    parse ['A', ' ', '{', '{', '>', 'p', '}', '}', ' ', 'B'] resP =
      .ok (⟨[Block.nameless ['A', ' '] Tag.Partial,
             ⟨['P'], [], 0, Tag.Comment, 0⟩], 3⟩, 8) ∧
    3 ≤ 3 := by
  refine ⟨?_, ?_, ?_, rfl, le_refl 3⟩
  · intro src resolver b pos html name blocks hint ms sl p2 ptpl h1 h2
    unfold partialArm
    rw [h1, h2]
  · intro src resolver b pos html name blocks hint ms sl p2 er h1 h2
    unfold partialArm
    rw [h1, h2]
  · intro src resolver b pos html name blocks hint s sl p2 h1
    unfold partialArm
    rw [h1]

/-- C10 witness: the success clause applied at a concrete closing token and
the E7 resolver. -/
theorem th_C10_w :
    closingNext ['}', '}'] 0 Braces.Two = (some (CTok.cmatch 0 ['}', '}']), 2) ∧
    resP ['p'] = .ok ⟨[⟨['P'], [], 0, Tag.Comment, 0⟩], 1⟩ ∧
    partialArm ['}', '}'] resP Braces.Two 0 ['h'] ['p'] [] 5 =
      .ok ([Block.nameless ['h'] Tag.Partial, ⟨['P'], [], 0, Tag.Comment, 0⟩],
           6, 0, 2) :=
  ⟨rfl, rfl, th_C10.1 ['}', '}'] resP Braces.Two 0 ['h'] ['p'] [] 5 0
      ['}', '}'] 2 ⟨[⟨['P'], [], 0, Tag.Comment, 0⟩], 1⟩ rfl rfl⟩

/-- C8 amended: at a position holding a closing brace, the closing Match
token succeeds if and only if the run of consecutive closing braces is at
least the recorded expectation: two-brace expectation matches both two and
three braces (consuming at most three), three-brace expectation requires at
least three. -/
theorem th_C8 (src : List Char) (pos : Nat) (b : Braces)
    (h : (src.drop pos).head? = some '}') :
    (∃ ms sl p2, closingNext src pos b = (some (CTok.cmatch ms sl), p2)) ↔
      b.toNat ≤ consecAt src pos := by
  unfold closingNext consecAt
  rcases hl : src.drop pos with _ | ⟨c, cs⟩
  · rw [hl] at h; simp at h
  · rw [hl] at h
    simp only [List.head?] at h
    obtain rfl : c = '}' := by injection h
    cases cs with
    | nil =>
      constructor
      · rintro ⟨ms, sl, p2, hh⟩
        simp [closingNextAux] at hh
      · intro hb
        exfalso
        cases b <;> simp [consecBraces, Braces.toNat] at hb
    | cons c2 cs2 =>
      by_cases hc2 : c2 = '}'
      · subst hc2
        cases cs2 with
        | nil =>
          cases b with
          | Two =>
            simp [closingNextAux, consecBraces, Braces.toNat]
          | Three =>
            constructor
            · rintro ⟨ms, sl, p2, hh⟩
              simp [closingNextAux] at hh
            · intro hb
              exfalso
              simp [consecBraces, Braces.toNat] at hb
        | cons c3 cs3 =>
          by_cases hc3 : c3 = '}'
          · subst hc3
            constructor
            · intro _
              cases b <;> simp [consecBraces, Braces.toNat]
            · intro _
              exact ⟨pos, ['}', '}', '}'], pos + 3, by simp [closingNextAux]⟩
          · cases b with
            | Two =>
              constructor
              · intro _
                simp [consecBraces, Braces.toNat, hc3]
              · intro _
                exact ⟨pos, ['}', '}'], pos + 2, by simp [closingNextAux, hc3]⟩
            | Three =>
              constructor
              · rintro ⟨ms, sl, p2, hh⟩
                simp [closingNextAux, hc3] at hh
              · intro hb
                exfalso
                simp [consecBraces, Braces.toNat, hc3] at hb
      · constructor
        · rintro ⟨ms, sl, p2, hh⟩
          simp [closingNextAux, hc2] at hh
        · intro hb
          exfalso
          cases b <;> simp [consecBraces, Braces.toNat, hc2] at hb

/-- C8 witness: the amended equivalence applied at a concrete two-brace run
with a two-brace expectation. -/
theorem th_C8_w :
    (List.drop 0 ['}', '}', 'x']).head? = some '}' ∧
    (∃ ms sl p2,
      closingNext ['}', '}', 'x'] 0 Braces.Two = (some (CTok.cmatch ms sl), p2)) :=
  ⟨rfl, (th_C8 ['}', '}', 'x'] 0 Braces.Two rfl).mpr (by decide)⟩

theorem length_modifyAt (l : List Block) (i : Nat) (f : Block → Block) :
    (modifyAt l i f).length = l.length := by
  induction l generalizing i with
  | nil => rfl
  | cons x xs ih =>
    cases i with
    | zero => simp [modifyAt]
    | succ j => simp [modifyAt, ih]

theorem getElem?_modifyAt (l : List Block) (i j : Nat) (f : Block → Block) :
    (modifyAt l i f)[j]? = if i = j then (l[j]?).map f else l[j]? := by
  induction l generalizing i j with
  | nil => simp [modifyAt]
  | cons x xs ih =>
    cases i with
    | zero =>
      cases j with
      | zero => simp [modifyAt]
      | succ j2 => simp [modifyAt]
    | succ i2 =>
      cases j with
      | zero => simp [modifyAt]
      | succ j2 => simpa [modifyAt, Nat.succ_inj] using ih i2 j2

theorem closeLoop_eq_popSections (src : List Char) (b : Braces)
    (pos : Nat) (ids : List (List Char)) (ms en : Nat)
    (h : ClosingToks src b pos ids ms en) :
    ∀ (fuel tail : Nat) (bs : List Block) (st : List Nat), ids.length < fuel →
    closeLoop src b fuel pos tail bs st =
      (match popSections tail ids bs st with
       | .error er => .error er
       | .ok (bs2, st2) => .ok (bs2, st2, ms, en)) := by
  induction h with
  | base pos ms sl en htok =>
    intro fuel tail bs st hfuel
    cases fuel with
    | zero => omega
    | succ f => simp only [closeLoop, htok, popSections]
  | step pos s nm p2 ids ms en htok _ ih =>
    intro fuel tail bs st hfuel
    cases fuel with
    | zero => omega
    | succ f =>
      simp only [closeLoop, htok, popSections]
      cases hps : popSection tail bs st nm with
      | error er => rfl
      | ok r =>
        obtain ⟨bs2, st2⟩ := r
        simp at hfuel
        exact ih f tail bs2 st2 (by omega)

theorem popSections_success (tail : Nat) :
    ∀ (ns : List (List Char)) (bs : List Block) (st : List Nat),
      ns.length ≤ st.length →
      (∀ i ∈ st, i < bs.length) →
      (∀ (j i : Nat) (nm : List Char) (blk : Block),
        st[j]? = some i → ns[j]? = some nm → bs[i]? = some blk →
        blk.hash = hash_name nm) →
      ∃ bs2, popSections tail ns bs st = .ok (bs2, st.drop ns.length) ∧
        bs2.length = bs.length ∧
        (∀ (j i : Nat) (blk : Block), j < ns.length → st[j]? = some i →
          bs[i]? = some blk → bs2[i]? = some (blk.withChildren (tail - i))) ∧
        (∀ i, (∀ j, j < ns.length → st[j]? ≠ some i) → bs2[i]? = bs[i]?) := by
  intro ns
  induction ns with
  | nil =>
    intro bs st _ _ _
    exact ⟨bs, rfl, rfl, fun j i blk hj _ _ => absurd hj (Nat.not_lt_zero j),
      fun i _ => rfl⟩
  | cons n ns ih =>
    intro bs st hlen hbound hhash
    cases st with
    | nil => simp at hlen
    | cons h st2 =>
      have hh : h < bs.length := hbound h (List.mem_cons_self h st2)
      obtain ⟨blk, hblk⟩ : ∃ blk, bs[h]? = some blk := by
        rw [List.getElem?_eq_getElem hh]; exact ⟨_, rfl⟩
      have hhash0 : blk.hash = hash_name n := hhash 0 h n blk (by simp) (by simp) hblk
      have hpop : popSection tail bs (h :: st2) n =
          .ok (modifyAt bs h (fun blk2 => blk2.withChildren (tail - h)), st2) := by
        simp only [popSection]
        rw [hblk]
        simp [Block.withChildren, hhash0]
      have hlen2 : ns.length ≤ st2.length := by
        simp at hlen; omega
      have hbound2 : ∀ i ∈ st2,
          i < (modifyAt bs h (fun blk2 => blk2.withChildren (tail - h))).length := by
        intro i hi
        rw [length_modifyAt]
        exact hbound i (List.mem_cons_of_mem h hi)
      have hhash2 : ∀ (j i : Nat) (nm : List Char) (blk2 : Block),
          st2[j]? = some i → ns[j]? = some nm →
          (modifyAt bs h (fun blk2 => blk2.withChildren (tail - h)))[i]? = some blk2 →
          blk2.hash = hash_name nm := by
        intro j i nm blk2 hst hns hbs1
        rw [getElem?_modifyAt] at hbs1
        by_cases hcase : h = i
        · rw [if_pos hcase] at hbs1
          obtain ⟨blk0, hblk0, rfl⟩ := Option.map_eq_some'.mp hbs1
          have := hhash (j + 1) i nm blk0 (by simpa using hst) (by simpa using hns) hblk0
          simpa [Block.withChildren] using this
        · rw [if_neg hcase] at hbs1
          exact hhash (j + 1) i nm blk2 (by simpa using hst) (by simpa using hns) hbs1
      obtain ⟨bs2, heq2, hlen2b, hset2, hun2⟩ :=
        ih (modifyAt bs h (fun blk2 => blk2.withChildren (tail - h))) st2 hlen2 hbound2 hhash2
      refine ⟨bs2, ?_, ?_, ?_, ?_⟩
      · show popSections tail (n :: ns) bs (h :: st2) = _
        simp only [popSections, hpop, heq2]
        simp
      · rw [hlen2b, length_modifyAt]
      · intro j i blk2 hj hst hbs
        cases j with
        | zero =>
          obtain rfl : h = i := by simpa using hst
          obtain rfl : blk = blk2 := by rw [hblk] at hbs; exact Option.some.inj hbs
          have hbs1h : (modifyAt bs h (fun b2 => b2.withChildren (tail - h)))[h]? =
              some (blk.withChildren (tail - h)) := by
            rw [getElem?_modifyAt, if_pos rfl, hblk]; rfl
          by_cases hin : ∃ j2, j2 < ns.length ∧ st2[j2]? = some h
          · obtain ⟨j2, hj2, hstj2⟩ := hin
            have := hset2 j2 h (blk.withChildren (tail - h)) hj2 hstj2 hbs1h
            simpa [Block.withChildren] using this
          · push_neg at hin
            rw [hun2 h hin]
            exact hbs1h
        | succ j2 =>
          have hst2 : st2[j2]? = some i := by simpa using hst
          have hj2 : j2 < ns.length := by simp at hj; omega
          by_cases hcase : h = i
          · subst hcase
            obtain rfl : blk = blk2 := by rw [hblk] at hbs; exact Option.some.inj hbs
            have hbs1h : (modifyAt bs h (fun b2 => b2.withChildren (tail - h)))[h]? =
                some (blk.withChildren (tail - h)) := by
              rw [getElem?_modifyAt, if_pos rfl, hblk]; rfl
            have := hset2 j2 h (blk.withChildren (tail - h)) hj2 hst2 hbs1h
            simpa [Block.withChildren] using this
          · have hbs1 : (modifyAt bs h (fun b2 => b2.withChildren (tail - h)))[i]? =
                some blk2 := by
              rw [getElem?_modifyAt, if_neg hcase]; exact hbs
            exact hset2 j2 i blk2 hj2 hst2 hbs1
      · intro i hnone
        have hne : h ≠ i := by
          intro heq
          exact hnone 0 (Nat.succ_pos _) (by simp [heq])
        have hnone2 : ∀ j, j < ns.length → st2[j]? ≠ some i := by
          intro j hj
          have := hnone (j + 1) (Nat.succ_lt_succ hj)
          simpa using this
        rw [hun2 i hnone2, getElem?_modifyAt, if_neg hne]

/-- C2: a Closing tag first pushes a nameless Closing block at index tailIdx,
then pops exactly one opener frame per identifier in token order, so the
first identifier closes the innermost opener (first conjunct, via the
pop_section fold); pop_section on an empty stack fails with UnopenedSection
carrying the identifier (second conjunct); on a hash mismatch it fails with
UnclosedSection carrying the popped opener's name (third conjunct); and when
every identifier's hash matches the corresponding frame top-down, all pops
succeed, each popped opener at index i gets children = tailIdx - i (the
Closing block's index minus the opener index), the popped frames leave the
stack and every other block is untouched (fourth conjunct). -/
theorem th_C2 :
    (∀ (src : List Char) (b : Braces) (fuel pos : Nat) (html name : List Char)
        (bs : List Block) (st : List Nat) (tailIdx : Nat)
        (ids : List (List Char)) (ms en : Nat),
      ClosingToks src b pos ids ms en → ids.length < fuel →
      closingArm src b fuel pos html name bs st tailIdx =
        (match popSections tailIdx (name :: ids)
            (bs ++ [Block.nameless html Tag.Closing]) st with
         | .error er => .error er
         | .ok (bs2, st2) => .ok (bs2, st2, ms, en))) ∧
    (∀ (tail : Nat) (bs : List Block) (nm : List Char),
      popSection tail bs [] nm = .error (Error.UnopenedSection nm)) ∧
    (∀ (tail i : Nat) (rest : List Nat) (nm : List Char) (blk : Block)
        (bs : List Block),
      bs[i]? = some blk → blk.hash ≠ hash_name nm →
      popSection tail bs (i :: rest) nm = .error (Error.UnclosedSection blk.name)) ∧
    (∀ (tail : Nat) (ns : List (List Char)) (bs : List Block) (st : List Nat),
      ns.length ≤ st.length →
      (∀ i ∈ st, i < bs.length) →
      (∀ (j i : Nat) (nm : List Char) (blk : Block),
        st[j]? = some i → ns[j]? = some nm → bs[i]? = some blk →
        blk.hash = hash_name nm) →
      ∃ bs2, popSections tail ns bs st = .ok (bs2, st.drop ns.length) ∧
        bs2.length = bs.length ∧
        (∀ (j i : Nat) (blk : Block), j < ns.length → st[j]? = some i →
          bs[i]? = some blk → bs2[i]? = some (blk.withChildren (tail - i))) ∧
        (∀ i, (∀ j, j < ns.length → st[j]? ≠ some i) → bs2[i]? = bs[i]?)) := by
  refine ⟨?_, ?_, ?_, popSections_success⟩
  · intro src b fuel pos html name bs st tailIdx ids ms en htoks hfuel
    simp only [closingArm, popSections]
    cases hps : popSection tailIdx (bs ++ [Block.nameless html Tag.Closing]) st name with
    | error er => rfl
    | ok r =>
      obtain ⟨bs1, st1⟩ := r
      exact closeLoop_eq_popSections src b pos ids ms en htoks fuel tailIdx bs1 st1 hfuel
  · intro tail bs nm
    rfl
  · intro tail i rest nm blk bs hblk hne
    simp only [popSection]
    rw [hblk]
    simp [Block.withChildren, hne]

/-- C2 witness: the hash-mismatch clause at a concrete opener, and the
pops-per-identifier clause at a concrete one-identifier closing tag. -/
theorem th_C2_w :
    ([Block.new [] ['a'] Tag.Section][0]? = some (Block.new [] ['a'] Tag.Section) ∧
     (Block.new [] ['a'] Tag.Section).hash ≠ hash_name ['b'] ∧
     popSection 5 [Block.new [] ['a'] Tag.Section] [0] ['b'] =
       .error (Error.UnclosedSection ['a'])) ∧
    closingArm ['}', '}'] Braces.Two 1 0 ['h'] ['a'] [] [] 0 =
      (match popSections 0 [['a']] ([] ++ [Block.nameless ['h'] Tag.Closing]) [] with
       | .error er => .error er
       | .ok (bs2, st2) => .ok (bs2, st2, 0, 2)) :=
  ⟨⟨rfl, by decide, th_C2.2.2.1 5 0 [] ['b'] (Block.new [] ['a'] Tag.Section)
        [Block.new [] ['a'] Tag.Section] rfl (by decide)⟩,
   th_C2.1 ['}', '}'] Braces.Two 1 0 ['h'] ['a'] [] [] 0 [] 0 2
      (ClosingToks.base 0 0 ['}', '}'] 2 rfl) (by decide)⟩

theorem rawVar_length (tag : Tag) :
    ∀ (ns : List (List Char)) (html : List Char),
      (rawVarBlocks html ns tag).length = ns.length := by
  intro ns
  induction ns with
  | nil => intro html; rfl
  | cons n ns2 ih =>
    intro html
    cases ns2 with
    | nil => rfl
    | cons n2 ns3 => simp [rawVarBlocks, ih []]

theorem varLoop_eq_raw (src : List Char) (b : Braces) (tag : Tag)
    (pos : Nat) (ids : List (List Char)) (ms en : Nat)
    (h : ClosingToks src b pos ids ms en) :
    ∀ (fuel : Nat) (html name : List Char) (bs : List Block), ids.length < fuel →
    varLoop src b tag fuel pos html name bs =
      .ok (bs ++ rawVarBlocks html (name :: ids) tag, ms, en) := by
  induction h with
  | base pos ms sl en htok =>
    intro fuel html name bs hfuel
    cases fuel with
    | zero => omega
    | succ f => simp [varLoop, htok, rawVarBlocks]
  | step pos s nm p2 ids ms en htok _ ih =>
    intro fuel html name bs hfuel
    cases fuel with
    | zero => omega
    | succ f =>
      simp only [varLoop, htok]
      rw [ih f [] nm (bs ++ [Block.new html name Tag.Section]) (by simp at hfuel; omega)]
      simp [rawVarBlocks]

theorem modifyAt_append (bs l : List Block) (j : Nat) (f : Block → Block) :
    modifyAt (bs ++ l) (bs.length + j) f = bs ++ modifyAt l j f := by
  induction bs with
  | nil => simp [Nat.zero_add]
  | cons x xs ih =>
    have hidx : (x :: xs).length + j = (xs.length + j) + 1 := by simp; omega
    rw [hidx]
    simp only [List.cons_append, modifyAt, List.append_eq]
    rw [ih]

theorem backfill_shift (t : Nat) :
    ∀ (m k : Nat), k ≤ m → ∀ bs, backfill t (m + 1) k bs = backfill (t + 1) m k bs := by
  intro m k
  induction k generalizing m with
  | zero => intro _ bs; rfl
  | succ k ih =>
    intro hk bs
    simp only [backfill]
    have harith : t + (m + 1 - (k + 1)) = t + 1 + (m - (k + 1)) := by omega
    rw [harith]
    exact ih m (by omega) _

theorem backfill_raw (tag : Tag) :
    ∀ (ns : List (List Char)) (html : List Char) (bs : List Block), ns ≠ [] →
    backfill bs.length (ns.length - 1) (ns.length - 1) (bs ++ rawVarBlocks html ns tag) =
      bs ++ mkVarBlocks html ns tag := by
  intro ns
  induction ns with
  | nil => intro html bs hne; exact absurd rfl hne
  | cons n ns2 ih =>
    intro html bs _
    cases ns2 with
    | nil => simp [backfill, rawVarBlocks, mkVarBlocks]
    | cons n2 ns3 =>
      have hlen : (n :: n2 :: ns3).length - 1 = ns3.length + 1 := by simp
      rw [hlen]
      show backfill bs.length (ns3.length + 1) (ns3.length + 1)
          (bs ++ (Block.new html n Tag.Section :: rawVarBlocks [] (n2 :: ns3) tag)) = _
      simp only [backfill]
      have hidx : bs.length + (ns3.length + 1 - (ns3.length + 1)) = bs.length + 0 := by omega
      rw [hidx]
      rw [modifyAt_append bs (Block.new html n Tag.Section :: rawVarBlocks [] (n2 :: ns3) tag) 0
          (fun blk => blk.withChildren (ns3.length + 1))]
      simp only [modifyAt]
      rw [backfill_shift bs.length ns3.length ns3.length (le_refl ns3.length)]
      have hsplit : bs ++ ((Block.new html n Tag.Section).withChildren (ns3.length + 1) ::
            rawVarBlocks [] (n2 :: ns3) tag) =
          (bs ++ [(Block.new html n Tag.Section).withChildren (ns3.length + 1)]) ++
            rawVarBlocks [] (n2 :: ns3) tag := by simp
      rw [hsplit]
      have hlb : bs.length + 1 =
          (bs ++ [(Block.new html n Tag.Section).withChildren (ns3.length + 1)]).length := by
        simp
      rw [hlb]
      have hihres := ih []
        (bs ++ [(Block.new html n Tag.Section).withChildren (ns3.length + 1)]) (by simp)
      simp only [List.length_cons, Nat.add_sub_cancel] at hihres
      rw [hihres]
      simp [mkVarBlocks]

theorem mkVar_children (tag : Tag) :
    ∀ (ns : List (List Char)) (html : List Char),
      List.map Block.children (mkVarBlocks html ns tag) =
        (List.range ns.length).reverse := by
  intro ns
  induction ns with
  | nil => intro html; rfl
  | cons n ns2 ih =>
    intro html
    cases ns2 with
    | nil =>
      simp [mkVarBlocks, Block.new]
      decide
    | cons n2 ns3 =>
      simp only [mkVarBlocks, List.map_cons]
      rw [ih []]
      rw [show (n :: n2 :: ns3).length = (n2 :: ns3).length + 1 by simp]
      rw [List.range_succ]
      simp [Block.withChildren]

theorem mkVar_tags (tag : Tag) :
    ∀ (ns : List (List Char)) (html : List Char), ns ≠ [] →
      List.map Block.tag (mkVarBlocks html ns tag) =
        List.replicate (ns.length - 1) Tag.Section ++ [tag] := by
  intro ns
  induction ns with
  | nil => intro html h; exact absurd rfl h
  | cons n ns2 ih =>
    intro html _
    cases ns2 with
    | nil => simp [mkVarBlocks, Block.new]
    | cons n2 ns3 =>
      simp only [mkVarBlocks, List.map_cons]
      rw [ih [] (by simp)]
      simp [Block.withChildren, Block.new, List.replicate_succ]

theorem mkVar_names (tag : Tag) :
    ∀ (ns : List (List Char)) (html : List Char),
      List.map Block.name (mkVarBlocks html ns tag) = ns := by
  intro ns
  induction ns with
  | nil => intro html; rfl
  | cons n ns2 ih =>
    intro html
    cases ns2 with
    | nil => simp [mkVarBlocks, Block.new]
    | cons n2 ns3 =>
      simp only [mkVarBlocks, List.map_cons]
      rw [ih []]
      simp [Block.withChildren, Block.new]

theorem mkVar_htmls (tag : Tag) :
    ∀ (ns : List (List Char)) (html : List Char), ns ≠ [] →
      List.map Block.html (mkVarBlocks html ns tag) =
        html :: List.replicate (ns.length - 1) [] := by
  intro ns
  induction ns with
  | nil => intro html h; exact absurd rfl h
  | cons n ns2 ih =>
    intro html _
    cases ns2 with
    | nil => simp [mkVarBlocks, Block.new]
    | cons n2 ns3 =>
      simp only [mkVarBlocks, List.map_cons]
      rw [ih [] (by simp)]
      simp [Block.withChildren, Block.new, List.replicate_succ]

/-- C6: on a variable tag whose closing-mode tokens are the identifier n0,
further identifiers ids and the closing Match, the Escaped/Unescaped arm
appends exactly the dotted-expansion group mkVarBlocks: one synthetic Section
per non-terminal identifier and a terminal block with the original tag (first
conjunct); within a group of d blocks the children fields are the chain
d-1, ..., 1, 0 (second conjunct), the tags are d-1 Sections then the original
tag (third), the names are the identifiers in order (fourth), and the first
block carries the captured html while the rest carry "" (fifth); scenario E3
evaluates as the spec states (sixth). -/
theorem th_C6 :
    (∀ (src : List Char) (b : Braces) (tag : Tag) (fuel pos : Nat)
        (ids : List (List Char)) (ms en : Nat) (html n0 : List Char)
        (bs : List Block),
      ClosingToks src b pos ids ms en → ids.length < fuel →
      varArm src b tag fuel pos html n0 bs bs.length =
        .ok (bs ++ mkVarBlocks html (n0 :: ids) tag, ms, en)) ∧
    (∀ (tag : Tag) (ns : List (List Char)) (html : List Char),
      List.map Block.children (mkVarBlocks html ns tag) =
        (List.range ns.length).reverse) ∧
    (∀ (tag : Tag) (ns : List (List Char)) (html : List Char), ns ≠ [] →
      List.map Block.tag (mkVarBlocks html ns tag) =
        List.replicate (ns.length - 1) Tag.Section ++ [tag]) ∧
    (∀ (tag : Tag) (ns : List (List Char)) (html : List Char),
      List.map Block.name (mkVarBlocks html ns tag) = ns) ∧
    (∀ (tag : Tag) (ns : List (List Char)) (html : List Char), ns ≠ [] →
      List.map Block.html (mkVarBlocks html ns tag) =
        html :: List.replicate (ns.length - 1) []) ∧
    parse ['{', '{', ' ', 'a', ' ', 'b', ' ', '}', '}'] failRes =
      .ok (⟨[Block.withChildren (Block.new [] ['a'] Tag.Section) 1,
             Block.new [] ['b'] Tag.Escaped], 0⟩, 9) := by
  refine ⟨?_, mkVar_children, mkVar_tags, mkVar_names, mkVar_htmls, rfl⟩
  intro src b tag fuel pos ids ms en html n0 bs htoks hfuel
  have hL : (bs ++ rawVarBlocks html (n0 :: ids) tag).length - bs.length - 1 =
      (n0 :: ids).length - 1 := by
    rw [List.length_append, rawVar_length]
    omega
  have hstep : varArm src b tag fuel pos html n0 bs bs.length =
      .ok (backfill bs.length
        ((bs ++ rawVarBlocks html (n0 :: ids) tag).length - bs.length - 1)
        ((bs ++ rawVarBlocks html (n0 :: ids) tag).length - bs.length - 1)
        (bs ++ rawVarBlocks html (n0 :: ids) tag), ms, en) := by
    unfold varArm
    rw [varLoop_eq_raw src b tag pos ids ms en htoks fuel html n0 bs hfuel]
  rw [hstep, hL, backfill_raw tag (n0 :: ids) html bs (by simp)]

/-- C6 witness: the expansion clause applied to the tokens of the tag
{{ a b }} (one further identifier b, then the closing Match). -/
theorem th_C6_w :
    ClosingToks ['{', '{', ' ', 'a', ' ', 'b', ' ', '}', '}'] Braces.Two 4
      [['b']] 7 9 ∧
    [['b']].length < 10 ∧
    varArm ['{', '{', ' ', 'a', ' ', 'b', ' ', '}', '}'] Braces.Two Tag.Escaped
        10 4 [] ['a'] [] 0 =
      .ok ([] ++ mkVarBlocks [] [['a'], ['b']] Tag.Escaped, 7, 9) :=
  ⟨ClosingToks.step 4 5 ['b'] 6 [] 7 9 rfl
      (ClosingToks.base 6 7 ['}', '}'] 9 rfl),
   by decide,
   th_C6.1 ['{', '{', ' ', 'a', ' ', 'b', ' ', '}', '}'] Braces.Two Tag.Escaped
      10 4 [['b']] 7 9 [] ['a'] []
      (ClosingToks.step 4 5 ['b'] 6 [] 7 9 rfl
        (ClosingToks.base 6 7 ['}', '}'] 9 rfl))
      (by decide)⟩

theorem htmlConcat_append (a c : List Block) :
    htmlConcat (a ++ c) = htmlConcat a ++ htmlConcat c := by
  induction a with
  | nil => rfl
  | cons x xs ih => simp [htmlConcat, ih]

theorem htmlConcat_modifyAt (l : List Block) (i c : Nat) :
    htmlConcat (modifyAt l i (fun blk => blk.withChildren c)) = htmlConcat l := by
  induction l generalizing i with
  | nil => rfl
  | cons x xs ih =>
    cases i with
    | zero => simp [modifyAt, htmlConcat, Block.withChildren]
    | succ j => simp [modifyAt, htmlConcat, ih]

theorem htmlConcat_backfill (t d : Nat) :
    ∀ (k : Nat) (bs : List Block), htmlConcat (backfill t d k bs) = htmlConcat bs := by
  intro k
  induction k with
  | zero => intro bs; rfl
  | succ k ih =>
    intro bs
    simp only [backfill]
    rw [ih, htmlConcat_modifyAt]

theorem varLoop_html (src : List Char) (b : Braces) (tag : Tag) :
    ∀ (fuel pos : Nat) (html name : List Char) (bs bs2 : List Block) (ms en : Nat),
      varLoop src b tag fuel pos html name bs = .ok (bs2, ms, en) →
      htmlConcat bs2 = htmlConcat bs ++ html := by
  intro fuel
  induction fuel with
  | zero =>
    intro pos html name bs bs2 ms en h
    simp [varLoop] at h
  | succ f ih =>
    intro pos html name bs bs2 ms en h
    rcases htok : closingNext src pos b with ⟨tk, p2⟩
    cases tk with
    | none =>
      simp only [varLoop, htok] at h
      simp at h
    | some ct =>
      cases ct with
      | cident s nm =>
        simp only [varLoop, htok] at h
        have := ih p2 [] nm (bs ++ [Block.new html name Tag.Section]) bs2 ms en h
        rw [this, htmlConcat_append]
        simp [htmlConcat, Block.new]
      | cmatch s sl =>
        simp only [varLoop, htok, Except.ok.injEq, Prod.mk.injEq] at h
        obtain ⟨rfl, -, -⟩ := h
        rw [htmlConcat_append]
        simp [htmlConcat, Block.new]
      | cerr s sl =>
        simp only [varLoop, htok] at h
        simp at h

theorem varArm_html (src : List Char) (b : Braces) (tag : Tag)
    (fuel pos : Nat) (html name : List Char) (bs : List Block) (tailIdx : Nat)
    (bs2 : List Block) (ms en : Nat)
    (h : varArm src b tag fuel pos html name bs tailIdx = .ok (bs2, ms, en)) :
    htmlConcat bs2 = htmlConcat bs ++ html := by
  simp only [varArm] at h
  cases hv : varLoop src b tag fuel pos html name bs with
  | error er => rw [hv] at h; simp at h
  | ok trip =>
    obtain ⟨bs1, ms1, en1⟩ := trip
    rw [hv] at h
    simp only [Except.ok.injEq, Prod.mk.injEq] at h
    obtain ⟨rfl, -, -⟩ := h
    rw [htmlConcat_backfill]
    exact varLoop_html src b tag fuel pos html name bs bs1 ms1 en1 hv

theorem sectionLoop_html (src : List Char) (b : Braces) (tag : Tag) :
    ∀ (fuel pos : Nat) (html name : List Char) (bs bs2 : List Block)
      (st st2 : List Nat) (ms en : Nat),
      sectionLoop src b tag fuel pos html name bs st = .ok (bs2, st2, ms, en) →
      htmlConcat bs2 = htmlConcat bs ++ html := by
  intro fuel
  induction fuel with
  | zero =>
    intro pos html name bs bs2 st st2 ms en h
    simp [sectionLoop] at h
  | succ f ih =>
    intro pos html name bs bs2 st st2 ms en h
    rcases htok : closingNext src pos b with ⟨tk, p2⟩
    cases tk with
    | none =>
      simp only [sectionLoop, htok] at h
      simp at h
    | some ct =>
      cases ct with
      | cident s nm =>
        simp only [sectionLoop, htok] at h
        cases htp : tryPush st bs.length with
        | error er => rw [htp] at h; simp at h
        | ok stp =>
          rw [htp] at h
          have := ih p2 [] nm (bs ++ [Block.new html name Tag.Section]) bs2 stp st2 ms en h
          rw [this, htmlConcat_append]
          simp [htmlConcat, Block.new]
      | cmatch s sl =>
        simp only [sectionLoop, htok] at h
        cases htp : tryPush st bs.length with
        | error er => rw [htp] at h; simp at h
        | ok stp =>
          rw [htp] at h
          simp only [Except.ok.injEq, Prod.mk.injEq] at h
          obtain ⟨rfl, -, -, -⟩ := h
          rw [htmlConcat_append]
          simp [htmlConcat, Block.new]
      | cerr s sl =>
        simp only [sectionLoop, htok] at h
        simp at h

theorem popSection_html (tail : Nat) (bs : List Block) (st : List Nat)
    (nm : List Char) (bs2 : List Block) (st2 : List Nat)
    (h : popSection tail bs st nm = .ok (bs2, st2)) :
    htmlConcat bs2 = htmlConcat bs := by
  cases st with
  | nil => simp [popSection] at h
  | cons i rest =>
    simp only [popSection] at h
    cases hblk : bs[i]? with
    | none => rw [hblk] at h; simp at h
    | some blk =>
      rw [hblk] at h
      split at h
      · simp at h
      · rename_i head heq
        obtain rfl : blk = head := Option.some.inj heq
        split at h
        · simp at h
        · injection h with h2
          injection h2 with h3 h4
          subst h3
          exact htmlConcat_modifyAt bs i (tail - i)

theorem closeLoop_html (src : List Char) (b : Braces) :
    ∀ (fuel pos tail : Nat) (bs bs2 : List Block) (st st2 : List Nat) (ms en : Nat),
      closeLoop src b fuel pos tail bs st = .ok (bs2, st2, ms, en) →
      htmlConcat bs2 = htmlConcat bs := by
  intro fuel
  induction fuel with
  | zero =>
    intro pos tail bs bs2 st st2 ms en h
    simp [closeLoop] at h
  | succ f ih =>
    intro pos tail bs bs2 st st2 ms en h
    rcases htok : closingNext src pos b with ⟨tk, p2⟩
    cases tk with
    | none =>
      simp only [closeLoop, htok] at h
      simp at h
    | some ct =>
      cases ct with
      | cident s nm =>
        simp only [closeLoop, htok] at h
        cases hps : popSection tail bs st nm with
        | error er => rw [hps] at h; simp at h
        | ok pr =>
          obtain ⟨bs1, st1⟩ := pr
          rw [hps] at h
          rw [ih p2 tail bs1 bs2 st1 st2 ms en h]
          exact popSection_html tail bs st nm bs1 st1 hps
      | cmatch s sl =>
        simp only [closeLoop, htok, Except.ok.injEq, Prod.mk.injEq] at h
        obtain ⟨rfl, -, -, -⟩ := h
        rfl
      | cerr s sl =>
        simp only [closeLoop, htok] at h
        simp at h

theorem closingArm_html (src : List Char) (b : Braces) (fuel pos : Nat)
    (html name : List Char) (bs : List Block) (st : List Nat) (tailIdx : Nat)
    (bs2 : List Block) (st2 : List Nat) (ms en : Nat)
    (h : closingArm src b fuel pos html name bs st tailIdx = .ok (bs2, st2, ms, en)) :
    htmlConcat bs2 = htmlConcat bs ++ html := by
  simp only [closingArm] at h
  cases hps : popSection tailIdx (bs ++ [Block.nameless html Tag.Closing]) st name with
  | error er => rw [hps] at h; simp at h
  | ok pr =>
    obtain ⟨bs1, st1⟩ := pr
    rw [hps] at h
    rw [closeLoop_html src b fuel pos tailIdx bs1 bs2 st1 st2 ms en h]
    rw [popSection_html tailIdx (bs ++ [Block.nameless html Tag.Closing]) st name bs1 st1 hps]
    rw [htmlConcat_append]
    simp [htmlConcat, Block.nameless]

theorem partialArm_ok_resolver (src : List Char)
    (resolver : List Char → Except Error Template) (b : Braces) (pos : Nat)
    (html name : List Char) (blocks : List Block) (hint : Nat)
    (out : List Block × Nat × Nat × Nat)
    (h : partialArm src resolver b pos html name blocks hint = .ok out) :
    ∃ t, resolver name = .ok t := by
  simp only [partialArm] at h
  rcases htok : closingNext src pos b with ⟨tk, p2⟩
  rw [htok] at h
  cases tk with
  | none => simp at h
  | some ct =>
    cases ct with
    | cmatch s sl =>
      cases hres : resolver name with
      | error er => rw [hres] at h; simp at h
      | ok t => exact ⟨t, rfl⟩
    | cident s sl => simp at h
    | cerr s sl => simp at h

theorem armStep_html (src : List Char)
    (resolver : List Char → Except Error Template)
    (hres : ∀ nm t, resolver nm ≠ .ok t) (b : Braces) (tag : Tag)
    (fuel pos : Nat) (html name : List Char) (blocks bs2 : List Block)
    (stack st2 : List Nat) (hint h2 ms en : Nat)
    (h : armStep src resolver b tag fuel pos html name blocks stack hint =
      .ok (bs2, st2, h2, ms, en)) :
    htmlConcat bs2 = htmlConcat blocks ++ html := by
  cases tag with
  | Escaped =>
    simp only [armStep] at h
    cases hv : varArm src b Tag.Escaped fuel pos html name blocks blocks.length with
    | error er => rw [hv] at h; simp at h
    | ok trip =>
      obtain ⟨bs1, ms1, en1⟩ := trip
      rw [hv] at h
      simp only [Except.ok.injEq, Prod.mk.injEq] at h
      obtain ⟨rfl, -, -, -, -⟩ := h
      exact varArm_html src b Tag.Escaped fuel pos html name blocks blocks.length bs1 ms1 en1 hv
  | Unescaped =>
    simp only [armStep] at h
    cases hv : varArm src b Tag.Unescaped fuel pos html name blocks blocks.length with
    | error er => rw [hv] at h; simp at h
    | ok trip =>
      obtain ⟨bs1, ms1, en1⟩ := trip
      rw [hv] at h
      simp only [Except.ok.injEq, Prod.mk.injEq] at h
      obtain ⟨rfl, -, -, -, -⟩ := h
      exact varArm_html src b Tag.Unescaped fuel pos html name blocks blocks.length bs1 ms1 en1 hv
  | Section =>
    simp only [armStep] at h
    cases hv : sectionLoop src b Tag.Section fuel pos html name blocks stack with
    | error er => rw [hv] at h; simp at h
    | ok quad =>
      obtain ⟨bs1, st1, ms1, en1⟩ := quad
      rw [hv] at h
      simp only [Except.ok.injEq, Prod.mk.injEq] at h
      obtain ⟨rfl, -, -, -, -⟩ := h
      exact sectionLoop_html src b Tag.Section fuel pos html name blocks bs1 stack st1 ms1 en1 hv
  | Inverse =>
    simp only [armStep] at h
    cases hv : sectionLoop src b Tag.Inverse fuel pos html name blocks stack with
    | error er => rw [hv] at h; simp at h
    | ok quad =>
      obtain ⟨bs1, st1, ms1, en1⟩ := quad
      rw [hv] at h
      simp only [Except.ok.injEq, Prod.mk.injEq] at h
      obtain ⟨rfl, -, -, -, -⟩ := h
      exact sectionLoop_html src b Tag.Inverse fuel pos html name blocks bs1 stack st1 ms1 en1 hv
  | Closing =>
    simp only [armStep] at h
    cases hv : closingArm src b fuel pos html name blocks stack blocks.length with
    | error er => rw [hv] at h; simp at h
    | ok quad =>
      obtain ⟨bs1, st1, ms1, en1⟩ := quad
      rw [hv] at h
      simp only [Except.ok.injEq, Prod.mk.injEq] at h
      obtain ⟨rfl, -, -, -, -⟩ := h
      exact closingArm_html src b fuel pos html name blocks stack blocks.length bs1 st1 ms1 en1 hv
  | Partial =>
    simp only [armStep] at h
    cases hv : partialArm src resolver b pos html name blocks hint with
    | error er => rw [hv] at h; simp at h
    | ok out =>
      obtain ⟨t, hts⟩ := partialArm_ok_resolver src resolver b pos html name blocks hint out hv
      exact absurd hts (hres name t)
  | Comment =>
    simp only [armStep] at h
    cases hv : commentLoop src b fuel pos with
    | error er => rw [hv] at h; simp at h
    | ok pr =>
      obtain ⟨ms1, en1⟩ := pr
      rw [hv] at h
      simp only [Except.ok.injEq, Prod.mk.injEq] at h
      obtain ⟨rfl, -, -, -, -⟩ := h
      rw [htmlConcat_append]
      simp [htmlConcat, Block.nameless]

theorem parseLoop_html (src : List Char)
    (resolver : List Char → Except Error Template)
    (hres : ∀ nm t, resolver nm ≠ .ok t) :
    ∀ (fuel : Nat) (bs : List Block) (hint : Nat) (st : List Nat)
      (last pos : Nat) (bsF : List Block) (hF lastF : Nat) (stF : List Nat)
      (spans : List (Nat × Nat)),
      parseLoop src resolver fuel bs hint st last pos =
        .ok (bsF, hF, lastF, stF, spans) →
      htmlConcat bsF ++ src.drop lastF =
        htmlConcat bs ++ removeSpans src last spans := by
  intro fuel
  induction fuel with
  | zero =>
    intro bs hint st last pos bsF hF lastF stF spans h
    simp [parseLoop] at h
  | succ f ih =>
    intro bs hint st last pos bsF hF lastF stF spans h
    cases hsig : findSigil src pos with
    | none =>
      simp only [parseLoop, hsig, Except.ok.injEq, Prod.mk.injEq] at h
      obtain ⟨rfl, rfl, rfl, rfl, rfl⟩ := h
      rfl
    | some quad =>
      obtain ⟨start, tag, sigLen, b⟩ := quad
      simp only [parseLoop, hsig] at h
      cases harm : armStep src resolver b tag (src.length + 1)
          (closingNext src (start + sigLen) b).2 (seg src last start)
          (tokSlice (closingNext src (start + sigLen) b).1) bs st
          (hint + (seg src last start).length) with
      | error er => rw [harm] at h; simp at h
      | ok quint =>
        obtain ⟨bs1, st1, h1, ms, en⟩ := quint
        rw [harm] at h
        replace h : (match parseLoop src resolver f bs1 h1 st1 (ms + b.toNat) en with
            | Except.error er =>
              (Except.error er :
                Except Error (List Block × Nat × Nat × List Nat × List (Nat × Nat)))
            | Except.ok (bsF2, hF2, lastF2, stF2, spans2) =>
                Except.ok (bsF2, hF2, lastF2, stF2, (start, ms + b.toNat) :: spans2)) =
              Except.ok (bsF, hF, lastF, stF, spans) := h
        cases hrec : parseLoop src resolver f bs1 h1 st1 (ms + b.toNat) en with
        | error er => rw [hrec] at h; simp at h
        | ok quint2 =>
          obtain ⟨bsF2, hF2, lastF2, stF2, spans2⟩ := quint2
          rw [hrec] at h
          simp only [Except.ok.injEq, Prod.mk.injEq] at h
          obtain ⟨rfl, rfl, rfl, rfl, rfl⟩ := h
          have hrec2 := ih bs1 h1 st1 (ms + b.toNat) en bsF2 hF2 lastF2 stF2 spans2 hrec
          have hah := armStep_html src resolver hres b tag (src.length + 1)
            (closingNext src (start + sigLen) b).2 (seg src last start)
            (tokSlice (closingNext src (start + sigLen) b).1) bs bs1 st st1
            (hint + (seg src last start).length) h1 ms en harm
          rw [hrec2, hah]
          simp only [removeSpans]
          rw [List.append_assoc]

/-- C4 amended: for a parse that inlines no partial (the resolver never
returns a template), concatenating block.html over all blocks in block order
and appending source[tail_offset..] yields exactly the original source with
every consumed tag span deleted; inlined partials break the equation because
their blocks carry html from the partial's own source. -/
theorem th_C4 (src : List Char) (resolver : List Char → Except Error Template)
    (hres : ∀ nm t, resolver nm ≠ .ok t) (bs : List Block)
    (hint last : Nat) (st : List Nat) (spans : List (Nat × Nat))
    (h : parseAll src resolver = .ok (bs, hint, last, st, spans)) :
    htmlConcat bs ++ src.drop last = removeSpans src 0 spans := by
  have := parseLoop_html src resolver hres (src.length + 1) [] 0 [] 0 0
    bs hint last st spans h
  simpa [htmlConcat] using this

/-- C4 witness: the amended equation applied to the parse of x{{a}}y with a
partial-free resolver. -/
theorem th_C4_w :
    parseAll ['x', '{', '{', 'a', '}', '}', 'y'] failRes =
      .ok ([Block.new ['x'] ['a'] Tag.Escaped], 1, 6, [], [(1, 6)]) ∧
    htmlConcat [Block.new ['x'] ['a'] Tag.Escaped] ++
        List.drop 6 ['x', '{', '{', 'a', '}', '}', 'y'] =
      removeSpans ['x', '{', '{', 'a', '}', '}', 'y'] 0 [(1, 6)] :=
  ⟨rfl, th_C4 ['x', '{', '{', 'a', '}', '}', 'y'] failRes
      (fun nm t => by simp [failRes]) [Block.new ['x'] ['a'] Tag.Escaped]
      1 6 [] [(1, 6)] rfl⟩

theorem blocksOk_nil : blocksOk [] := by
  intro i blk h
  simp at h

theorem blocksOk_append (a c : List Block) (ha : blocksOk a) (hc : blocksOk c) :
    blocksOk (a ++ c) := by
  intro i blk hget htag hch
  by_cases hi : i < a.length
  · rw [List.getElem?_append_left hi] at hget
    obtain ⟨b2, hb2, hgood⟩ := ha i blk hget htag hch
    have hlt : i + blk.children < a.length := (List.getElem?_eq_some_iff.mp hb2).1
    exact ⟨b2, by rw [List.getElem?_append_left hlt]; exact hb2, hgood⟩
  · push_neg at hi
    rw [List.getElem?_append_right hi] at hget
    obtain ⟨b2, hb2, hgood⟩ := hc (i - a.length) blk hget htag hch
    refine ⟨b2, ?_, hgood⟩
    rw [List.getElem?_append_right (by omega)]
    rw [show i + blk.children - a.length = i - a.length + blk.children by omega]
    exact hb2

theorem blocksOk_single (blk : Block) (h : blk.children = 0) : blocksOk [blk] := by
  intro i b2 hget htag hch
  cases i with
  | zero =>
    simp at hget
    subst hget
    exact absurd h hch
  | succ j => simp at hget

theorem mkVar_last (tag : Tag) :
    ∀ (ns : List (List Char)) (html : List Char), ns ≠ [] →
      ∃ b2, (mkVarBlocks html ns tag)[ns.length - 1]? = some b2 ∧ b2.tag = tag := by
  intro ns
  induction ns with
  | nil => intro html h; exact absurd rfl h
  | cons n ns2 ih =>
    intro html _
    cases ns2 with
    | nil => exact ⟨Block.new html n tag, rfl, rfl⟩
    | cons n2 ns3 =>
      obtain ⟨b2, hb2, htag⟩ := ih [] (by simp)
      refine ⟨b2, ?_, htag⟩
      rw [show (n :: n2 :: ns3).length - 1 = ((n2 :: ns3).length - 1) + 1 by simp]
      simpa [mkVarBlocks] using hb2

theorem blocksOk_mkVar (tag : Tag) (htag : goodEnd tag) :
    ∀ (ns : List (List Char)) (html : List Char),
      blocksOk (mkVarBlocks html ns tag) := by
  intro ns
  induction ns with
  | nil => intro html; exact blocksOk_nil
  | cons n ns2 ih =>
    intro html
    cases ns2 with
    | nil => exact blocksOk_single _ rfl
    | cons n2 ns3 =>
      intro i blk hget htg hch
      cases i with
      | zero =>
        simp only [mkVarBlocks, List.getElem?_cons_zero] at hget
        obtain rfl := Option.some.inj hget
        obtain ⟨b2, hb2, hbt⟩ := mkVar_last tag (n2 :: ns3) [] (by simp)
        refine ⟨b2, ?_, by rw [hbt]; exact htag⟩
        show (mkVarBlocks html (n :: n2 :: ns3) tag)[0 + (n2 :: ns3).length]? = some b2
        rw [show 0 + (n2 :: ns3).length = ((n2 :: ns3).length - 1) + 1 by simp]
        simpa [mkVarBlocks] using hb2
      | succ j =>
        simp only [mkVarBlocks, List.getElem?_cons_succ] at hget
        obtain ⟨b2, hb2, hgood⟩ := ih [] j blk hget htg hch
        refine ⟨b2, ?_, hgood⟩
        rw [show j + 1 + blk.children = (j + blk.children) + 1 by omega]
        simpa [mkVarBlocks] using hb2

theorem blocksOk_popmod (bs : List Block) (i tail : Nat) (hi : i < tail)
    (hOk : blocksOk bs)
    (hcb : ∃ cb, bs[tail]? = some cb ∧ cb.tag = Tag.Closing) :
    blocksOk (modifyAt bs i (fun b2 => b2.withChildren (tail - i))) := by
  obtain ⟨cb, hcb1, hcb2⟩ := hcb
  intro k blk hget htg hch
  rw [getElem?_modifyAt] at hget
  by_cases hk : i = k
  · subst hk
    rw [if_pos rfl] at hget
    obtain ⟨blk0, hblk0, rfl⟩ := Option.map_eq_some'.mp hget
    show ∃ b2, (modifyAt bs i fun b2 => b2.withChildren (tail - i))[i +
      (blk0.withChildren (tail - i)).children]? = some b2 ∧ goodEnd b2.tag
    have harith : i + (blk0.withChildren (tail - i)).children = tail := by
      show i + (tail - i) = tail
      omega
    rw [harith, getElem?_modifyAt, if_neg (by omega), hcb1]
    exact ⟨cb, rfl, Or.inl hcb2⟩
  · rw [if_neg hk] at hget
    obtain ⟨b2, hb2, hgood⟩ := hOk k blk hget htg hch
    rw [getElem?_modifyAt]
    by_cases hk2 : i = k + blk.children
    · rw [if_pos hk2, hb2]
      exact ⟨b2.withChildren (tail - i), rfl, hgood⟩
    · rw [if_neg hk2]
      exact ⟨b2, hb2, hgood⟩

theorem popSection_ok_shape (tail : Nat) (bs : List Block) (st : List Nat)
    (nm : List Char) (bs2 : List Block) (st2 : List Nat)
    (h : popSection tail bs st nm = .ok (bs2, st2)) :
    ∃ i blk, st = i :: st2 ∧ bs[i]? = some blk ∧
      bs2 = modifyAt bs i (fun b2 => b2.withChildren (tail - i)) := by
  cases st with
  | nil => simp [popSection] at h
  | cons i rest =>
    simp only [popSection] at h
    cases hblk : bs[i]? with
    | none => rw [hblk] at h; simp at h
    | some blk =>
      rw [hblk] at h
      split at h
      · simp at h
      · rename_i head heq
        obtain rfl : blk = head := Option.some.inj heq
        split at h
        · simp at h
        · injection h with h2
          injection h2 with h3 h4
          exact ⟨i, blk, by rw [h4], hblk, h3.symm⟩

theorem closeLoop_ok (src : List Char) (b : Braces) :
    ∀ (fuel pos tail : Nat) (bs bs2 : List Block) (st st2 : List Nat) (ms en : Nat),
      closeLoop src b fuel pos tail bs st = .ok (bs2, st2, ms, en) →
      blocksOk bs → (∀ i ∈ st, i < tail) →
      (∃ cb, bs[tail]? = some cb ∧ cb.tag = Tag.Closing) →
      blocksOk bs2 ∧ (∀ i ∈ st2, i < tail) ∧ bs2.length = bs.length := by
  intro fuel
  induction fuel with
  | zero =>
    intro pos tail bs bs2 st st2 ms en h
    simp [closeLoop] at h
  | succ f ih =>
    intro pos tail bs bs2 st st2 ms en h hOk hst hcb
    rcases htok : closingNext src pos b with ⟨tk, p2⟩
    cases tk with
    | none =>
      simp only [closeLoop, htok] at h
      simp at h
    | some ct =>
      cases ct with
      | cident s nm =>
        simp only [closeLoop, htok] at h
        cases hps : popSection tail bs st nm with
        | error er => rw [hps] at h; simp at h
        | ok pr =>
          obtain ⟨bs1, st1⟩ := pr
          rw [hps] at h
          obtain ⟨i, blk, hstshape, hblk, rfl⟩ :=
            popSection_ok_shape tail bs st nm bs1 st1 hps
          have hi : i < tail := hst i (by rw [hstshape]; exact List.mem_cons_self i st1)
          have hOk1 := blocksOk_popmod bs i tail hi hOk hcb
          have hst1 : ∀ j ∈ st1, j < tail := by
            intro j hj
            exact hst j (by rw [hstshape]; exact List.mem_cons_of_mem i hj)
          have hcb1 : ∃ cb, (modifyAt bs i fun b2 => b2.withChildren (tail - i))[tail]? =
              some cb ∧ cb.tag = Tag.Closing := by
            obtain ⟨cb, hc1, hc2⟩ := hcb
            exact ⟨cb, by rw [getElem?_modifyAt, if_neg (by omega)]; exact hc1, hc2⟩
          obtain ⟨r1, r2, r3⟩ := ih p2 tail _ bs2 st1 st2 ms en h hOk1 hst1 hcb1
          exact ⟨r1, r2, by rw [r3, length_modifyAt]⟩
      | cmatch s sl =>
        simp only [closeLoop, htok, Except.ok.injEq, Prod.mk.injEq] at h
        obtain ⟨rfl, rfl, -, -⟩ := h
        exact ⟨hOk, hst, rfl⟩
      | cerr s sl =>
        simp only [closeLoop, htok] at h
        simp at h

theorem closingArm_ok (src : List Char) (b : Braces) (fuel pos : Nat)
    (html name : List Char) (bs : List Block) (st : List Nat)
    (bs2 : List Block) (st2 : List Nat) (ms en : Nat)
    (h : closingArm src b fuel pos html name bs st bs.length = .ok (bs2, st2, ms, en))
    (hOk : blocksOk bs) (hst : ∀ i ∈ st, i < bs.length) :
    blocksOk bs2 ∧ (∀ i ∈ st2, i < bs2.length) ∧ bs.length ≤ bs2.length := by
  simp only [closingArm] at h
  have hOkC : blocksOk (bs ++ [Block.nameless html Tag.Closing]) :=
    blocksOk_append bs [Block.nameless html Tag.Closing] hOk (blocksOk_single _ rfl)
  have hcb : ∃ cb, (bs ++ [Block.nameless html Tag.Closing])[bs.length]? = some cb ∧
      cb.tag = Tag.Closing := by
    refine ⟨Block.nameless html Tag.Closing, ?_, rfl⟩
    rw [List.getElem?_append_right (le_refl bs.length)]
    simp
  cases hps : popSection bs.length (bs ++ [Block.nameless html Tag.Closing]) st name with
  | error er => rw [hps] at h; simp at h
  | ok pr =>
    obtain ⟨bs1, st1⟩ := pr
    rw [hps] at h
    obtain ⟨i, blk, hstshape, hblk, rfl⟩ :=
      popSection_ok_shape bs.length (bs ++ [Block.nameless html Tag.Closing]) st name bs1 st1 hps
    have hi : i < bs.length := hst i (by rw [hstshape]; exact List.mem_cons_self i st1)
    have hOk1 := blocksOk_popmod (bs ++ [Block.nameless html Tag.Closing]) i bs.length hi hOkC hcb
    have hst1 : ∀ j ∈ st1, j < bs.length := by
      intro j hj
      exact hst j (by rw [hstshape]; exact List.mem_cons_of_mem i hj)
    have hcb1 : ∃ cb, (modifyAt (bs ++ [Block.nameless html Tag.Closing]) i
        fun b2 => b2.withChildren (bs.length - i))[bs.length]? = some cb ∧
        cb.tag = Tag.Closing := by
      obtain ⟨cb, hc1, hc2⟩ := hcb
      exact ⟨cb, by rw [getElem?_modifyAt, if_neg (by omega)]; exact hc1, hc2⟩
    obtain ⟨r1, r2, r3⟩ := closeLoop_ok src b fuel pos bs.length _ bs2 st1 st2 ms en h hOk1 hst1 hcb1
    have hlen : bs2.length = bs.length + 1 := by
      rw [r3, length_modifyAt]
      simp
    refine ⟨r1, ?_, by omega⟩
    intro j hj
    have := r2 j hj
    omega

theorem tryPush_ok (st : List Nat) (i : Nat) (st2 : List Nat)
    (h : tryPush st i = .ok st2) : st2 = i :: st := by
  unfold tryPush at h
  split at h
  · injection h with h2
    exact h2.symm
  · simp at h

theorem sectionLoop_ok (src : List Char) (b : Braces) (tag : Tag) :
    ∀ (fuel pos : Nat) (html name : List Char) (bs bs2 : List Block)
      (st st2 : List Nat) (ms en : Nat),
      sectionLoop src b tag fuel pos html name bs st = .ok (bs2, st2, ms, en) →
      blocksOk bs → (∀ i ∈ st, i < bs.length) →
      blocksOk bs2 ∧ (∀ i ∈ st2, i < bs2.length) ∧ bs.length ≤ bs2.length := by
  intro fuel
  induction fuel with
  | zero =>
    intro pos html name bs bs2 st st2 ms en h
    simp [sectionLoop] at h
  | succ f ih =>
    intro pos html name bs bs2 st st2 ms en h hOk hst
    rcases htok : closingNext src pos b with ⟨tk, p2⟩
    cases tk with
    | none =>
      simp only [sectionLoop, htok] at h
      simp at h
    | some ct =>
      cases ct with
      | cident s nm =>
        simp only [sectionLoop, htok] at h
        cases htp : tryPush st bs.length with
        | error er => rw [htp] at h; simp at h
        | ok stp =>
          rw [htp] at h
          obtain rfl := tryPush_ok st bs.length stp htp
          have hOk1 : blocksOk (bs ++ [Block.new html name Tag.Section]) :=
            blocksOk_append bs _ hOk (blocksOk_single _ rfl)
          have hst1 : ∀ i ∈ bs.length :: st,
              i < (bs ++ [Block.new html name Tag.Section]).length := by
            intro i hi
            rcases List.mem_cons.mp hi with rfl | hi2
            · simp
            · have := hst i hi2
              simp
              omega
          obtain ⟨r1, r2, r3⟩ := ih p2 [] nm (bs ++ [Block.new html name Tag.Section])
            bs2 (bs.length :: st) st2 ms en h hOk1 hst1
          refine ⟨r1, r2, ?_⟩
          have hlen1 : (bs ++ [Block.new html name Tag.Section]).length = bs.length + 1 := by
            simp
          omega
      | cmatch s sl =>
        simp only [sectionLoop, htok] at h
        cases htp : tryPush st bs.length with
        | error er => rw [htp] at h; simp at h
        | ok stp =>
          rw [htp] at h
          obtain rfl := tryPush_ok st bs.length stp htp
          simp only [Except.ok.injEq, Prod.mk.injEq] at h
          obtain ⟨rfl, rfl, -, -⟩ := h
          refine ⟨blocksOk_append bs _ hOk (blocksOk_single _ rfl), ?_, by simp⟩
          intro i hi
          rcases List.mem_cons.mp hi with rfl | hi2
          · simp
          · have := hst i hi2
            simp
            omega
      | cerr s sl =>
        simp only [sectionLoop, htok] at h
        simp at h

theorem varLoop_toks (src : List Char) (b : Braces) (tag : Tag) :
    ∀ (fuel pos : Nat) (html name : List Char) (bs bs2 : List Block) (ms en : Nat),
      varLoop src b tag fuel pos html name bs = .ok (bs2, ms, en) →
      ∃ ids, ClosingToks src b pos ids ms en ∧ ids.length < fuel := by
  intro fuel
  induction fuel with
  | zero =>
    intro pos html name bs bs2 ms en h
    simp [varLoop] at h
  | succ f ih =>
    intro pos html name bs bs2 ms en h
    rcases htok : closingNext src pos b with ⟨tk, p2⟩
    cases tk with
    | none =>
      simp only [varLoop, htok] at h
      simp at h
    | some ct =>
      cases ct with
      | cident s nm =>
        simp only [varLoop, htok] at h
        obtain ⟨ids, htoks, hlen⟩ :=
          ih p2 [] nm (bs ++ [Block.new html name Tag.Section]) bs2 ms en h
        refine ⟨nm :: ids, ClosingToks.step pos s nm p2 ids ms en htok htoks, ?_⟩
        simp
        omega
      | cmatch s sl =>
        simp only [varLoop, htok, Except.ok.injEq, Prod.mk.injEq] at h
        obtain ⟨-, rfl, rfl⟩ := h
        exact ⟨[], ClosingToks.base pos s sl p2 htok, by simp⟩
      | cerr s sl =>
        simp only [varLoop, htok] at h
        simp at h

theorem varArm_mk (src : List Char) (b : Braces) (tag : Tag) (fuel pos : Nat)
    (html name : List Char) (bs bs2 : List Block) (ms en : Nat)
    (h : varArm src b tag fuel pos html name bs bs.length = .ok (bs2, ms, en)) :
    ∃ ids, bs2 = bs ++ mkVarBlocks html (name :: ids) tag := by
  simp only [varArm] at h
  cases hv : varLoop src b tag fuel pos html name bs with
  | error er => rw [hv] at h; simp at h
  | ok trip =>
    obtain ⟨bs1, ms1, en1⟩ := trip
    rw [hv] at h
    obtain ⟨ids, htoks, hlen⟩ := varLoop_toks src b tag fuel pos html name bs bs1 ms1 en1 hv
    have hraw := varLoop_eq_raw src b tag pos ids ms1 en1 htoks fuel html name bs hlen
    rw [hraw] at hv
    simp only [Except.ok.injEq, Prod.mk.injEq] at hv
    obtain ⟨hbs1, -, -⟩ := hv
    subst hbs1
    simp only [Except.ok.injEq, Prod.mk.injEq] at h
    obtain ⟨rfl, -, -⟩ := h
    refine ⟨ids, ?_⟩
    have hL : (bs ++ rawVarBlocks html (name :: ids) tag).length - bs.length - 1 =
        (name :: ids).length - 1 := by
      rw [List.length_append, rawVar_length]
      omega
    rw [hL]
    exact backfill_raw tag (name :: ids) html bs (by simp)

theorem partialArm_shape (src : List Char)
    (resolver : List Char → Except Error Template) (b : Braces) (pos : Nat)
    (html name : List Char) (blocks : List Block) (hint : Nat)
    (bs2 : List Block) (h2 ms en : Nat)
    (h : partialArm src resolver b pos html name blocks hint = .ok (bs2, h2, ms, en)) :
    ∃ t, resolver name = .ok t ∧
      bs2 = blocks ++ [Block.nameless html Tag.Partial] ++ t.blocks := by
  simp only [partialArm] at h
  rcases htok : closingNext src pos b with ⟨tk, p2⟩
  rw [htok] at h
  cases tk with
  | none => simp at h
  | some ct =>
    cases ct with
    | cmatch s sl =>
      cases hres : resolver name with
      | error er => rw [hres] at h; simp at h
      | ok t =>
        rw [hres] at h
        simp only [Except.ok.injEq, Prod.mk.injEq] at h
        obtain ⟨rfl, -, -, -⟩ := h
        exact ⟨t, rfl, rfl⟩
    | cident s sl => simp at h
    | cerr s sl => simp at h

theorem armStep_ok (src : List Char)
    (resolver : List Char → Except Error Template)
    (hres : ∀ nm t, resolver nm = .ok t → blocksOk t.blocks)
    (b : Braces) (tag : Tag) (fuel pos : Nat) (html name : List Char)
    (blocks bs2 : List Block) (stack st2 : List Nat) (hint h2 ms en : Nat)
    (h : armStep src resolver b tag fuel pos html name blocks stack hint =
      .ok (bs2, st2, h2, ms, en))
    (hOk : blocksOk blocks) (hst : ∀ i ∈ stack, i < blocks.length) :
    blocksOk bs2 ∧ (∀ i ∈ st2, i < bs2.length) := by
  cases tag with
  | Escaped =>
    simp only [armStep] at h
    cases hv : varArm src b Tag.Escaped fuel pos html name blocks blocks.length with
    | error er => rw [hv] at h; simp at h
    | ok trip =>
      obtain ⟨bs1, ms1, en1⟩ := trip
      rw [hv] at h
      simp only [Except.ok.injEq, Prod.mk.injEq] at h
      obtain ⟨rfl, rfl, -, -, -⟩ := h
      obtain ⟨ids, rfl⟩ :=
        varArm_mk src b Tag.Escaped fuel pos html name blocks bs1 ms1 en1 hv
      refine ⟨blocksOk_append _ _ hOk
        (blocksOk_mkVar Tag.Escaped (Or.inr (Or.inl rfl)) (name :: ids) html), ?_⟩
      intro i hi
      have := hst i hi
      rw [List.length_append]
      omega
  | Unescaped =>
    simp only [armStep] at h
    cases hv : varArm src b Tag.Unescaped fuel pos html name blocks blocks.length with
    | error er => rw [hv] at h; simp at h
    | ok trip =>
      obtain ⟨bs1, ms1, en1⟩ := trip
      rw [hv] at h
      simp only [Except.ok.injEq, Prod.mk.injEq] at h
      obtain ⟨rfl, rfl, -, -, -⟩ := h
      obtain ⟨ids, rfl⟩ :=
        varArm_mk src b Tag.Unescaped fuel pos html name blocks bs1 ms1 en1 hv
      refine ⟨blocksOk_append _ _ hOk
        (blocksOk_mkVar Tag.Unescaped (Or.inr (Or.inr rfl)) (name :: ids) html), ?_⟩
      intro i hi
      have := hst i hi
      rw [List.length_append]
      omega
  | Section =>
    simp only [armStep] at h
    cases hv : sectionLoop src b Tag.Section fuel pos html name blocks stack with
    | error er => rw [hv] at h; simp at h
    | ok quad =>
      obtain ⟨bs1, st1, ms1, en1⟩ := quad
      rw [hv] at h
      simp only [Except.ok.injEq, Prod.mk.injEq] at h
      obtain ⟨rfl, rfl, -, -, -⟩ := h
      obtain ⟨r1, r2, -⟩ := sectionLoop_ok src b Tag.Section fuel pos html name
        blocks bs1 stack st1 ms1 en1 hv hOk hst
      exact ⟨r1, r2⟩
  | Inverse =>
    simp only [armStep] at h
    cases hv : sectionLoop src b Tag.Inverse fuel pos html name blocks stack with
    | error er => rw [hv] at h; simp at h
    | ok quad =>
      obtain ⟨bs1, st1, ms1, en1⟩ := quad
      rw [hv] at h
      simp only [Except.ok.injEq, Prod.mk.injEq] at h
      obtain ⟨rfl, rfl, -, -, -⟩ := h
      obtain ⟨r1, r2, -⟩ := sectionLoop_ok src b Tag.Inverse fuel pos html name
        blocks bs1 stack st1 ms1 en1 hv hOk hst
      exact ⟨r1, r2⟩
  | Closing =>
    simp only [armStep] at h
    cases hv : closingArm src b fuel pos html name blocks stack blocks.length with
    | error er => rw [hv] at h; simp at h
    | ok quad =>
      obtain ⟨bs1, st1, ms1, en1⟩ := quad
      rw [hv] at h
      simp only [Except.ok.injEq, Prod.mk.injEq] at h
      obtain ⟨rfl, rfl, -, -, -⟩ := h
      obtain ⟨r1, r2, -⟩ := closingArm_ok src b fuel pos html name blocks stack
        bs1 st1 ms1 en1 hv hOk hst
      exact ⟨r1, r2⟩
  | Partial =>
    simp only [armStep] at h
    cases hv : partialArm src resolver b pos html name blocks hint with
    | error er => rw [hv] at h; simp at h
    | ok out =>
      obtain ⟨bs1, h1, ms1, en1⟩ := out
      rw [hv] at h
      simp only [Except.ok.injEq, Prod.mk.injEq] at h
      obtain ⟨rfl, rfl, -, -, -⟩ := h
      obtain ⟨t, hts, rfl⟩ :=
        partialArm_shape src resolver b pos html name blocks hint bs1 h1 ms1 en1 hv
      refine ⟨blocksOk_append _ _ (blocksOk_append _ _ hOk (blocksOk_single _ rfl))
        (hres name t hts), ?_⟩
      intro i hi
      have := hst i hi
      rw [List.length_append, List.length_append]
      omega
  | Comment =>
    simp only [armStep] at h
    cases hv : commentLoop src b fuel pos with
    | error er => rw [hv] at h; simp at h
    | ok pr =>
      obtain ⟨ms1, en1⟩ := pr
      rw [hv] at h
      simp only [Except.ok.injEq, Prod.mk.injEq] at h
      obtain ⟨rfl, rfl, -, -, -⟩ := h
      refine ⟨blocksOk_append _ _ hOk (blocksOk_single _ rfl), ?_⟩
      intro i hi
      have := hst i hi
      rw [List.length_append]
      omega

theorem parseLoop_ok (src : List Char)
    (resolver : List Char → Except Error Template)
    (hres : ∀ nm t, resolver nm = .ok t → blocksOk t.blocks) :
    ∀ (fuel : Nat) (bs : List Block) (hint : Nat) (st : List Nat) (last pos : Nat)
      (bsF : List Block) (hF lastF : Nat) (stF : List Nat) (spans : List (Nat × Nat)),
      parseLoop src resolver fuel bs hint st last pos = .ok (bsF, hF, lastF, stF, spans) →
      blocksOk bs → (∀ i ∈ st, i < bs.length) →
      blocksOk bsF := by
  intro fuel
  induction fuel with
  | zero =>
    intro bs hint st last pos bsF hF lastF stF spans h
    simp [parseLoop] at h
  | succ f ih =>
    intro bs hint st last pos bsF hF lastF stF spans h hOk hst
    cases hsig : findSigil src pos with
    | none =>
      simp only [parseLoop, hsig, Except.ok.injEq, Prod.mk.injEq] at h
      obtain ⟨rfl, rfl, rfl, rfl, rfl⟩ := h
      exact hOk
    | some quad =>
      obtain ⟨start, tag, sigLen, b⟩ := quad
      simp only [parseLoop, hsig] at h
      cases harm : armStep src resolver b tag (src.length + 1)
          (closingNext src (start + sigLen) b).2 (seg src last start)
          (tokSlice (closingNext src (start + sigLen) b).1) bs st
          (hint + (seg src last start).length) with
      | error er => rw [harm] at h; simp at h
      | ok quint =>
        obtain ⟨bs1, st1, h1, ms, en⟩ := quint
        rw [harm] at h
        replace h : (match parseLoop src resolver f bs1 h1 st1 (ms + b.toNat) en with
            | Except.error er =>
              (Except.error er :
                Except Error (List Block × Nat × Nat × List Nat × List (Nat × Nat)))
            | Except.ok (bsF2, hF2, lastF2, stF2, spans2) =>
                Except.ok (bsF2, hF2, lastF2, stF2, (start, ms + b.toNat) :: spans2)) =
              Except.ok (bsF, hF, lastF, stF, spans) := h
        cases hrec : parseLoop src resolver f bs1 h1 st1 (ms + b.toNat) en with
        | error er => rw [hrec] at h; simp at h
        | ok quint2 =>
          obtain ⟨bsF2, hF2, lastF2, stF2, spans2⟩ := quint2
          rw [hrec] at h
          simp only [Except.ok.injEq, Prod.mk.injEq] at h
          obtain ⟨rfl, rfl, rfl, rfl, rfl⟩ := h
          obtain ⟨hOk1, hst1⟩ := armStep_ok src resolver hres b tag (src.length + 1)
            (closingNext src (start + sigLen) b).2 (seg src last start)
            (tokSlice (closingNext src (start + sigLen) b).1) bs bs1 st st1
            (hint + (seg src last start).length) h1 ms en harm hOk hst
          exact ih bs1 h1 st1 (ms + b.toNat) en bsF2 hF2 lastF2 stF2 spans2 hrec hOk1 hst1

/-- C3 amended: in a successfully parsed template (with every
resolver-supplied template satisfying the same invariant), every Section or
Inverse block with nonzero children ends its inclusive subtree at a block
whose tag is Closing, Escaped or Unescaped: Closing for openers balanced by a
closing tag, Escaped/Unescaped for the synthetic sections of a dotted
variable expansion. Openers left unclosed at end of input keep children = 0
while parse still returns Ok (see C1), so the block at i + 0 is the opener
itself, not a Closing block. -/
theorem th_C3 (src : List Char) (resolver : List Char → Except Error Template)
    (hres : ∀ nm t, resolver nm = .ok t → blocksOk t.blocks)
    (t : Template) (off : Nat) (h : parse src resolver = .ok (t, off)) :
    blocksOk t.blocks := by
  unfold parse at h
  cases hall : parseAll src resolver with
  | error er => rw [hall] at h; simp at h
  | ok quint =>
    obtain ⟨bs, hint, last, st, spans⟩ := quint
    rw [hall] at h
    simp only [Except.ok.injEq, Prod.mk.injEq] at h
    obtain ⟨ht, -⟩ := h
    have := parseLoop_ok src resolver hres (src.length + 1) [] 0 [] 0 0
      bs hint last st spans hall blocksOk_nil (by intro i hi; simp at hi)
    rw [← ht]
    exact this

/-- C3 witness: the amended invariant applied to the parse of
{{#a}}x{{/a}}, whose opener has children 1 pointing at the Closing block. -/
theorem th_C3_w :
    blocksOk [Block.withChildren (Block.new [] ['a'] Tag.Section) 1,
      Block.nameless ['x'] Tag.Closing] :=
  th_C3 ['{', '{', '#', 'a', '}', '}', 'x', '{', '{', '/', 'a', '}', '}'] failRes
    (fun nm t hok => absurd hok (by simp [failRes]))
    ⟨[Block.withChildren (Block.new [] ['a'] Tag.Section) 1,
      Block.nameless ['x'] Tag.Closing], 1⟩ 13 rfl
